import Mathlib

/-!
# k8s-ingress-hosts (`glasses.go`): a shallow embedding and its verified properties

The program keeps a list of `(domain, owning ingress)` rules in sync with the ingress
objects of a cluster, renders the list as hosts-file lines and writes them into a
delimited block of the hosts file.

Go strings are embedded as lists of characters (`Str`); every function of the program
that is modelled here treats its strings as well-formed UTF-8 text.  A run-time panic
(index out of range) is the value `none` of an `Option` result.
-/

namespace K8sIngressHosts

/-! ## Data model -/

/-- Text of the program: a Go `string` / `[]byte`, as its sequence of characters. -/
abbrev Str := List Char

/-- The Go type `Rule` (`glasses.go`, lines 60-63). -/
structure Rule where
  Domain : Str
  Service : Str
deriving DecidableEq, Repr

/-- The Go type `HostsList` (`type HostsList []Rule`). -/
abbrev HostsList := List Rule

/-- The part of `v1.IngressRule` the program reads: the field `Host`. -/
structure IngressRule where
  Host : Str
deriving DecidableEq, Repr

/-- The part of `v1.IngressSpec` the program reads: the field `Rules`. -/
structure IngressSpec where
  Rules : List IngressRule
deriving DecidableEq, Repr

/-- The part of `v1.Ingress` the program reads: `Name` and `Spec.Rules`. -/
structure Ingress where
  Name : Str
  Spec : IngressSpec
deriving DecidableEq, Repr

/-! ## The rule store: initial listing and the three watch events (`main`) -/

/-- The inner loop shared by the initial listing (lines 168-173) and the `Added` case
(lines 192-197): `for _, rule := range rules { entries = append(entries, Rule{...}) }`. -/
def appendRules (entries : HostsList) (name : Str) (rules : List IngressRule) : HostsList :=
  rules.foldl (fun entries rule => entries ++ [{ Domain := rule.Host, Service := name }]) entries

/-- Initial listing (lines 166-174): `var entries HostsList` followed by the loop over
`ingresses.Items` and, inside it, over `elem.Spec.Rules`. -/
def initialListing (items : List Ingress) : HostsList :=
  items.foldl (fun entries elem => appendRules entries elem.Name elem.Spec.Rules) []

/-- The case `apiWatch.Added` (lines 189-197). -/
def added (entries : HostsList) (newIngress : Ingress) : HostsList :=
  appendRules entries newIngress.Name newIngress.Spec.Rules

/-- The case `apiWatch.Modified` (lines 198-205):
`for i, entry := range entries { if entry.Service == updatedIngress.Name {
   entries[i].Domain = updatedIngress.Spec.Rules[0].Host } }`.
The loop has no `break`.  Reading `Rules[0]` of an empty slice panics: the result is
`none`. -/
def modified (entries : HostsList) (updatedIngress : Ingress) : Option HostsList :=
  match entries with
  | [] => some []
  | entry :: rest =>
    if entry.Service = updatedIngress.Name then
      match updatedIngress.Spec.Rules[0]? with
      | none => none
      | some rule0 =>
        (modified rest updatedIngress).map
          (fun rest => { entry with Domain := rule0.Host } :: rest)
    else
      (modified rest updatedIngress).map (fun rest => entry :: rest)

/-- The index at which `for i, entry := range entries { if p entry { ...; break } }`
runs its body, if any. -/
def firstIndex (p : Rule → Bool) : HostsList → Option Nat
  | [] => none
  | entry :: rest => if p entry then some 0 else (firstIndex p rest).map (· + 1)

/-- The inner loop of the case `apiWatch.Deleted` (lines 210-215), for one rule:
at the first `i` with `entry.Service == name && entry.Domain == host`,
`entries = append(entries[:i], entries[i+1:]...)` and `break`. -/
def deleteRule (entries : HostsList) (name host : Str) : HostsList :=
  match firstIndex (fun entry => entry.Service = name ∧ entry.Domain = host) entries with
  | some i => entries.take i ++ entries.drop (i + 1)
  | none => entries

/-- The case `apiWatch.Deleted` (lines 206-216): the loop over `deletedIngress.Spec.Rules`. -/
def deleted (entries : HostsList) (deletedIngress : Ingress) : HostsList :=
  deletedIngress.Spec.Rules.foldl
    (fun entries rule => deleteRule entries deletedIngress.Name rule.Host) entries

/-- The operation `UpdateOwnerDomain(owner, newDomain)` in the words of the
specification: "finds the first entry whose owner matches and overwrites its domain
field"; every other entry is left as it is. -/
def specUpdateOwnerDomain (owner newDomain : Str) : HostsList → HostsList
  | [] => []
  | entry :: rest =>
    if entry.Service = owner then { entry with Domain := newDomain } :: rest
    else entry :: specUpdateOwnerDomain owner newDomain rest

/-! ## Sorting: `HostsList.Len`, `Swap`, `Less` and `sort.Sort` -/

/-- Go's `<` on strings: lexicographic order of the bytes, which for well-formed UTF-8
is the lexicographic order of the code points. -/
def strLess : Str → Str → Bool
  | _, [] => false
  | [], _ :: _ => true
  | a :: s, b :: t =>
    if a.toNat < b.toNat then true
    else if b.toNat < a.toNat then false
    else strLess s t

/-- The library function `strings.ToLower`: `strings.Map(unicode.ToLower, s)`.  The case
table `unicode.ToLower` is the parameter `lower`. -/
def ToLower (lower : Char → Char) (s : Str) : Str := s.map lower

/-- The method `HostsList.Len` (line 69). -/
def HostsList.Len (h : HostsList) : Nat := h.length

/-- The method `HostsList.Swap` (line 70): `h[i], h[j] = h[j], h[i]`.  An index out of
range (a panic in Go) is never passed by the sort; the list is then returned as it is. -/
def HostsList.Swap (h : HostsList) (i j : Nat) : HostsList :=
  match h[i]?, h[j]? with
  | some hi, some hj => (h.set i hj).set j hi
  | _, _ => h

/-- The method `HostsList.Less` (lines 71-73):
`strings.ToLower(h[i].Domain) < strings.ToLower(h[j].Domain)`. -/
def HostsList.Less (lower : Char → Char) (h : HostsList) (i j : Nat) : Bool :=
  match h[i]?, h[j]? with
  | some hi, some hj => strLess (ToLower lower hi.Domain) (ToLower lower hj.Domain)
  | _, _ => false

/-! ### The library function `sort.Sort` (package `sort`)

`sort.Sort` sees the data only through `Len`, `Less` and `Swap`.  Since Go 1.19 it is a
pattern-defeating quicksort: insertion sort on slices of at most 12 elements, otherwise
a quicksort with pivot selection by medians, a partial insertion sort on slices that look
sorted, a partition of the elements equal to the pivot, a pseudo-random shuffle after an
unbalanced partition, and heap sort once too many partitions were unbalanced.  All of it
is embedded below, function by function.  The sort is not stable. -/

/-- The inner loop of the library function `insertionSort(data, a, b)`:
`for j := i; j > a && data.Less(j, j-1); j-- { data.Swap(j, j-1) }`, with `j = a + k`. -/
def insertionSortInner (lower : Char → Char) (a : Nat) : Nat → HostsList → HostsList
  | 0, data => data
  | k + 1, data =>
    if HostsList.Less lower data (a + k + 1) (a + k) then
      insertionSortInner lower a k (HostsList.Swap data (a + k + 1) (a + k))
    else data

/-- The library function `insertionSort(data, a, b)`:
`for i := a + 1; i < b; i++ { inner loop }`. -/
def insertionSort (lower : Char → Char) (data : HostsList) (a b : Nat) : HostsList :=
  (List.range' 1 (b - a - 1)).foldl (fun data k => insertionSortInner lower a k data) data

/-- The library function `siftDown(data, lo, hi, first)`, its loop from the node `root` on:
`child := 2*root + 1`; return when `child >= hi`; the greater child is taken; return when
the root is not less than it; otherwise both are swapped and the loop goes on at the
child.  The node index grows in every round, so `hi` rounds are enough for `fuel`. -/
def siftDown (lower : Char → Char) (first hi : Nat) : Nat → HostsList → Nat → HostsList
  | 0, data, _ => data
  | fuel + 1, data, root =>
    if hi ≤ 2 * root + 1 then data
    else
      let child :=
        if 2 * root + 2 < hi ∧
            HostsList.Less lower data (first + (2 * root + 1)) (first + (2 * root + 2)) then
          2 * root + 2
        else 2 * root + 1
      if HostsList.Less lower data (first + root) (first + child) then
        siftDown lower first hi fuel (HostsList.Swap data (first + root) (first + child)) child
      else data

/-- The first loop of `heapSort`: `for i := (hi - 1) / 2; i >= 0; i-- { siftDown(data, i, hi,
first) }`; `count` is `i + 1`. -/
def heapBuild (lower : Char → Char) (first hi : Nat) : Nat → HostsList → HostsList
  | 0, data => data
  | i + 1, data => heapBuild lower first hi i (siftDown lower first hi hi data i)

/-- The second loop of `heapSort`: `for i := hi - 1; i >= 0; i-- { data.Swap(first, first+i);
siftDown(data, lo, i, first) }` with `lo = 0`; `count` is `i + 1`. -/
def heapPop (lower : Char → Char) (first : Nat) : Nat → HostsList → HostsList
  | 0, data => data
  | i + 1, data =>
    heapPop lower first i
      (siftDown lower first i i (HostsList.Swap data first (first + i)) 0)

/-- The library function `heapSort(data, a, b)`. -/
def heapSort (lower : Char → Char) (data : HostsList) (a b : Nat) : HostsList :=
  heapPop lower a (b - a) (heapBuild lower a (b - a) ((b - a - 1) / 2 + 1) data)

/-- The loop `for i <= j && data.Less(i, a) { i++ }` of `partition`; the result is the new
`i`.  The first argument counts the indices left, `j + 1 - i`. -/
def scanLess (lower : Char → Char) (data : HostsList) (a : Nat) : Nat → Nat → Nat
  | 0, i => i
  | left + 1, i => if HostsList.Less lower data i a then scanLess lower data a left (i + 1) else i

/-- The loop `for i <= j && !data.Less(j, a) { j-- }` of `partition`; the result is the new
`j`.  The first argument counts the indices left, `j + 1 - i`. -/
def scanNotLess (lower : Char → Char) (data : HostsList) (a : Nat) : Nat → Nat → Nat
  | 0, j => j
  | left + 1, j =>
    if HostsList.Less lower data j a then j else scanNotLess lower data a left (j - 1)

/-- The loop `for { ... }` of `partition` (and the same three steps before it): both scans,
then `if i > j { break }`, then `data.Swap(i, j); i++; j--`.  The result is the data and
the final `j`; `fuel` bounds the rounds, of which each one removes two indices. -/
def partitionLoop (lower : Char → Char) (a : Nat) :
    Nat → HostsList → Nat → Nat → HostsList × Nat
  | 0, data, _, j => (data, j)
  | fuel + 1, data, i, j =>
    let i' := scanLess lower data a (j + 1 - i) i
    let j' := scanNotLess lower data a (j + 1 - i') j
    if j' < i' then (data, j')
    else partitionLoop lower a fuel (HostsList.Swap data i' j') (i' + 1) (j' - 1)

/-- The library function `partition(data, a, b, pivot)`: the data, `newpivot` and
`alreadyPartitioned`. -/
def partition (lower : Char → Char) (data : HostsList) (a b pivot : Nat) :
    HostsList × Nat × Bool :=
  let data := HostsList.Swap data a pivot
  let i := scanLess lower data a (b - 1 + 1 - (a + 1)) (a + 1)
  let j := scanNotLess lower data a (b - 1 + 1 - i) (b - 1)
  if j < i then (HostsList.Swap data j a, j, true)
  else
    let r := partitionLoop lower a (b - a) (HostsList.Swap data i j) (i + 1) (j - 1)
    (HostsList.Swap r.1 r.2 a, r.2, false)

/-- The loop `for i <= j && !data.Less(a, i) { i++ }` of `partitionEqual`. -/
def scanNotGreater (lower : Char → Char) (data : HostsList) (a : Nat) : Nat → Nat → Nat
  | 0, i => i
  | left + 1, i =>
    if HostsList.Less lower data a i then i else scanNotGreater lower data a left (i + 1)

/-- The loop `for i <= j && data.Less(a, j) { j-- }` of `partitionEqual`. -/
def scanGreater (lower : Char → Char) (data : HostsList) (a : Nat) : Nat → Nat → Nat
  | 0, j => j
  | left + 1, j =>
    if HostsList.Less lower data a j then scanGreater lower data a left (j - 1) else j

/-- The loop of `partitionEqual`; the result is the data and the final `i`. -/
def partitionEqualLoop (lower : Char → Char) (a : Nat) :
    Nat → HostsList → Nat → Nat → HostsList × Nat
  | 0, data, i, _ => (data, i)
  | fuel + 1, data, i, j =>
    let i' := scanNotGreater lower data a (j + 1 - i) i
    let j' := scanGreater lower data a (j + 1 - i') j
    if j' < i' then (data, i')
    else partitionEqualLoop lower a fuel (HostsList.Swap data i' j') (i' + 1) (j' - 1)

/-- The library function `partitionEqual(data, a, b, pivot)`: the data and `newpivot`. -/
def partitionEqual (lower : Char → Char) (data : HostsList) (a b pivot : Nat) :
    HostsList × Nat :=
  partitionEqualLoop lower a (b - a + 1) (HostsList.Swap data a pivot) (a + 1) (b - 1)

/-- The loop `for i < b && !data.Less(i, i-1) { i++ }` of `partialInsertionSort`; the first
argument counts the indices left, `b - i`. -/
def scanOrdered (lower : Char → Char) (data : HostsList) : Nat → Nat → Nat
  | 0, i => i
  | left + 1, i =>
    if HostsList.Less lower data i (i - 1) then i else scanOrdered lower data left (i + 1)

/-- The loop `for j := i + 1; j < b; j++ { if !data.Less(j, j-1) { break }; data.Swap(j, j-1) }`
of `partialInsertionSort`; the first argument counts the indices left, `b - j`. -/
def shiftRight (lower : Char → Char) : Nat → HostsList → Nat → HostsList
  | 0, data, _ => data
  | left + 1, data, j =>
    if HostsList.Less lower data j (j - 1) then
      shiftRight lower left (HostsList.Swap data j (j - 1)) (j + 1)
    else data

/-- The loop `for j := 0; j < maxSteps; j++` of `partialInsertionSort` (the first argument
counts the steps left).  The loop that shifts the smaller element to the left,
`for j := i - 1; j >= 1; j-- { if !data.Less(j, j-1) { break }; data.Swap(j, j-1) }`, is the
inner loop of the insertion sort with lower end 0. -/
def partialInsertionSortLoop (lower : Char → Char) (a b : Nat) :
    Nat → HostsList → Nat → HostsList × Bool
  | 0, data, _ => (data, false)
  | steps + 1, data, i =>
    let i := scanOrdered lower data (b - i) i
    if i = b then (data, true)
    else if b - a < 50 then (data, false)
    else
      let data := HostsList.Swap data i (i - 1)
      let data := if 2 ≤ i - a then insertionSortInner lower 0 (i - 1) data else data
      let data := if 2 ≤ b - i then shiftRight lower (b - (i + 1)) data (i + 1) else data
      partialInsertionSortLoop lower a b steps data i

/-- The library function `partialInsertionSort(data, a, b)` (`maxSteps = 5`,
`shortestShifting = 50`): the data and whether the slice is sorted at the end. -/
def partialInsertionSort (lower : Char → Char) (data : HostsList) (a b : Nat) :
    HostsList × Bool :=
  partialInsertionSortLoop lower a b 5 data (a + 1)

/-- The library function `bits.Len`: the number of bits of `n`. -/
def bitsLen : Nat → Nat → Nat
  | 0, _ => 0
  | fuel + 1, n => if n = 0 then 0 else bitsLen fuel (n / 2) + 1

/-- The library function `breakPatterns(data, a, b)`: for `length >= 8` three swaps of
`idx-1+i` with `a + other`, where `other` is drawn from the generator `random`, seeded
with the length, and reduced below `length`.  The generator step `random.Next` is the
parameter `next`. -/
def breakPatterns (next : Nat → Nat) (data : HostsList) (a b : Nat) : HostsList :=
  let length := b - a
  if 8 ≤ length then
    let modulus := 2 ^ bitsLen length length
    let idx := a + (length / 4) * 2 - 1
    let other := fun r : Nat => if length ≤ r % modulus then r % modulus - length else r % modulus
    let r1 := next length
    let r2 := next r1
    let r3 := next r2
    let data := HostsList.Swap data (idx - 1 + 0) (a + other r1)
    let data := HostsList.Swap data (idx - 1 + 1) (a + other r2)
    HostsList.Swap data (idx - 1 + 2) (a + other r3)
  else data

/-- The library type `sortedHint`. -/
inductive sortedHint where
  | unknownHint
  | increasingHint
  | decreasingHint
deriving DecidableEq, Repr

/-- The library function `order2(data, a, b, swaps)`: the pair of indices in order, and the
new count of swaps. -/
def order2 (lower : Char → Char) (data : HostsList) (a b swaps : Nat) : Nat × Nat × Nat :=
  if HostsList.Less lower data b a then (b, a, swaps + 1) else (a, b, swaps)

/-- The library function `median(data, a, b, c, swaps)`: the index of the median and the
new count of swaps. -/
def median (lower : Char → Char) (data : HostsList) (a b c swaps : Nat) : Nat × Nat :=
  let r1 := order2 lower data a b swaps
  let r2 := order2 lower data r1.2.1 c r1.2.2
  let r3 := order2 lower data r1.1 r2.1 r2.2.2
  (r3.2.1, r3.2.2)

/-- The library function `medianAdjacent(data, a, swaps)`. -/
def medianAdjacent (lower : Char → Char) (data : HostsList) (a swaps : Nat) : Nat × Nat :=
  median lower data (a - 1) a (a + 1) swaps

/-- The library function `choosePivot(data, a, b)` (`shortestNinther = 50`,
`maxSwaps = 4 * 3`). -/
def choosePivot (lower : Char → Char) (data : HostsList) (a b : Nat) : Nat × sortedHint :=
  let l := b - a
  let i := a + l / 4 * 1
  let j := a + l / 4 * 2
  let k := a + l / 4 * 3
  let r :=
    if 8 ≤ l then
      if 50 ≤ l then
        let ri := medianAdjacent lower data i 0
        let rj := medianAdjacent lower data j ri.2
        let rk := medianAdjacent lower data k rj.2
        median lower data ri.1 rj.1 rk.1 rk.2
      else median lower data i j k 0
    else (j, 0)
  if r.2 = 0 then (r.1, sortedHint.increasingHint)
  else if r.2 = 12 then (r.1, sortedHint.decreasingHint)
  else (r.1, sortedHint.unknownHint)

/-- The loop of the library function `reverseRange`: `for i < j { data.Swap(i, j); i++; j-- }`;
the first argument bounds the rounds. -/
def reverseLoop : Nat → HostsList → Nat → Nat → HostsList
  | 0, data, _, _ => data
  | fuel + 1, data, i, j =>
    if i < j then reverseLoop fuel (HostsList.Swap data i j) (i + 1) (j - 1) else data

/-- The library function `reverseRange(data, a, b)`. -/
def reverseRange (data : HostsList) (a b : Nat) : HostsList :=
  reverseLoop (b - a) data a (b - 1)

/-- The library function `pdqsort(data, a, b, limit)` (`maxInsertion = 12`), with the loop
variables `wasBalanced` and `wasPartitioned` as arguments: a round of the loop that goes
on is a call with the new `a`, `b` and flags.  Every round and every recursive call has a
shorter slice; `fuel` exceeds the length of the slice. -/
def pdqsort (lower : Char → Char) (next : Nat → Nat) :
    Nat → HostsList → Nat → Nat → Nat → Bool → Bool → HostsList
  | 0, data, _, _, _, _, _ => data
  | fuel + 1, data, a, b, limit, wasBalanced, wasPartitioned =>
    if b - a ≤ 12 then insertionSort lower data a b
    else if limit = 0 then heapSort lower data a b
    else
      let data := if wasBalanced then data else breakPatterns next data a b
      let limit := if wasBalanced then limit else limit - 1
      let p := choosePivot lower data a b
      let data := if p.2 = sortedHint.decreasingHint then reverseRange data a b else data
      let pivot := if p.2 = sortedHint.decreasingHint then (b - 1) - (p.1 - a) else p.1
      let hint := if p.2 = sortedHint.decreasingHint then sortedHint.increasingHint else p.2
      let s :=
        if wasBalanced ∧ wasPartitioned ∧ hint = sortedHint.increasingHint then
          partialInsertionSort lower data a b
        else (data, false)
      if s.2 then s.1
      else if 0 < a ∧ HostsList.Less lower s.1 (a - 1) pivot = false then
        let e := partitionEqual lower s.1 a b pivot
        pdqsort lower next fuel e.1 e.2 b limit wasBalanced wasPartitioned
      else
        let r := partition lower s.1 a b pivot
        let mid := r.2.1
        if mid - a < b - mid then
          pdqsort lower next fuel (pdqsort lower next fuel r.1 a mid limit true true)
            (mid + 1) b limit (decide ((b - a) / 8 ≤ mid - a)) r.2.2
        else
          pdqsort lower next fuel (pdqsort lower next fuel r.1 (mid + 1) b limit true true)
            a mid limit (decide ((b - a) / 8 ≤ b - mid)) r.2.2

/-- The call `sort.Sort(HostsList(entries))` (line 108): `n := data.Len()`, nothing for
`n <= 1`, else `pdqsort(data, 0, n, bits.Len(uint(n)))`.  The parameter `next` is the step
of the pseudo-random generator used by `breakPatterns`. -/
def sortSort (lower : Char → Char) (next : Nat → Nat) (data : HostsList) : HostsList :=
  if HostsList.Len data ≤ 1 then data
  else
    pdqsort lower next (HostsList.Len data + 1) data 0 (HostsList.Len data)
      (bitsLen (HostsList.Len data) (HostsList.Len data)) true true

/-- The generator step `xorshift.Next` of package `sort` on 64-bit words:
`r ^= r << 13; r ^= r >> 7; r ^= r << 17` (the first releases with this sort shift by 13,
17 and 5 instead; the properties proved for every list hold for every step function). -/
def xorshiftNext (r : Nat) : Nat :=
  let r := (r ^^^ (r <<< 13)) % 2 ^ 64
  let r := r ^^^ (r >>> 7)
  (r ^^^ (r <<< 17)) % 2 ^ 64

/-! ## Rendering: `Rule.String` and `text/tabwriter` -/

/-- The method `Rule.String` (line 65):
`fmt.Sprintf("%s %s\t# %s", k8sHostname, r.Domain, r.Service)`. -/
def Rule.String (k8sHostname : Str) (r : Rule) : Str :=
  k8sHostname ++ [' '] ++ r.Domain ++ ['\t', '#', ' '] ++ r.Service

/-- The loop of `sortAndWrite` (lines 110-113):
`hostEntries = hostEntries + fmt.Sprintf("%s\n", item.String())`. -/
def hostEntries (k8sHostname : Str) (entries : HostsList) : Str :=
  entries.foldl (fun hostEntries item => hostEntries ++ (item.String k8sHostname ++ ['\n'])) []

/-- The argument `minwidth` of `tabwriter.NewWriter(wBuffer, 0, 0, 2, ' ', 0)`. -/
def minwidth : Nat := 0

/-- The argument `padding` of `tabwriter.NewWriter(wBuffer, 0, 0, 2, ' ', 0)`. -/
def padding : Nat := 2

/-- The argument `padchar` of `tabwriter.NewWriter(wBuffer, 0, 0, 2, ' ', 0)`. -/
def padchar : Char := ' '

/-- A `cell` of `text/tabwriter`: its text (the library keeps the byte count `size` and
the rune count `width` of it) and whether a horizontal tab terminated it. -/
structure Cell where
  text : Str
  htab : Bool
deriving DecidableEq, Repr

/-- The rune count `width` of a cell. -/
def Cell.width (c : Cell) : Nat := c.text.length

/-- The state of a `tabwriter.Writer` with `flags = 0`: the bytes already written to the
underlying buffer, the text of the incomplete cell, and the buffered lines, of which
`last` is the one being filled (the library's `lines` is `lines ++ [last]`). -/
structure Writer where
  output : Str
  cell : Str
  lines : List (List Cell)
  last : List Cell
deriving DecidableEq, Repr

/-- The state after `Init` (which ends in `reset`): nothing written, one empty line. -/
def NewWriter : Writer := { output := [], cell := [], lines := [], last := [] }

/-- The cells of one line as `writeLines` writes them, left-aligned: the text of cell `j`
and, when `j < len(widths)`, `writePadding(c.width, widths[j], false)`, which for a pad
character other than tab writes `widths[j] - c.width` pad characters. -/
def writeCells : List Nat → List Cell → Str
  | _, [] => []
  | [], c :: cs => c.text ++ writeCells [] cs
  | w :: ws, c :: cs => c.text ++ List.replicate (w - c.width) padchar ++ writeCells ws cs

/-- The library function `writeLines` on the lines `line0, line0+1, ...`: after the cells of
line `i` a newline, except after the last buffered line (`i+1 == len(b.lines)`, here
`total`), whose incomplete cell is empty whenever `format` runs. -/
def writeLines (total : Nat) (widths : List Nat) : Nat → List (List Cell) → Str
  | _, [] => []
  | line0, line :: rest =>
    writeCells widths line ++ (if line0 + 1 = total then [] else ['\n'])
      ++ writeLines total widths (line0 + 1) rest

/-- The width of a column block: `width := minwidth` and, for every line of the block,
`if w := c.width + padding; w > width { width = w }` with `c := line[column]` (the line
is `row` here). -/
def blockWidth (column : Nat) (blockLines : List (List Cell)) : Nat :=
  blockLines.foldl
    (fun width row =>
      match row[column]? with
      | some c => if c.width + padding > width then c.width + padding else width
      | none => width)
    minwidth

/-- The library function `format(pos, line0, line1)` on the lines `line0 ... line1-1`,
with `column = len(widths)`.  Lines without a cell in this column
(`column >= len(line)-1`) are skipped until a line starts a column block; the lines
skipped so far are written, the block (the following lines that have a cell in this
column) is formatted with the block width pushed, and the loop goes on behind the block.
The recursion of the library ends because a block call has one more width and the loop
behind a block has fewer lines; here it is bounded by `fuel`, and `format_fuel` shows that
the result does not depend on the bound once it exceeds `formatSteps`. -/
def format (total : Nat) : Nat → List Nat → Nat → List (List Cell) → Str
  | 0, widths, line0, lines => writeLines total widths line0 lines
  | fuel + 1, widths, line0, lines =>
    let column := widths.length
    let skipped := lines.takeWhile (fun line => decide (line.length ≤ column + 1))
    match lines.dropWhile (fun line => decide (line.length ≤ column + 1)) with
    | [] => writeLines total widths line0 lines
    | line :: rest =>
      let blockLines := (line :: rest).takeWhile (fun line => decide (column + 1 < line.length))
      let behind := (line :: rest).dropWhile (fun line => decide (column + 1 < line.length))
      writeLines total widths line0 skipped
        ++ format total fuel (widths ++ [blockWidth column blockLines])
            (line0 + skipped.length) blockLines
        ++ format total fuel widths (line0 + skipped.length + blockLines.length) behind

/-- The library function `terminateCell(htab)`: the incomplete cell is added to the last
line; the number of cells of that line is returned. -/
def Writer.terminateCell (b : Writer) (htab : Bool) : Writer × Nat :=
  ({ b with cell := [], last := b.last ++ [{ text := b.cell, htab := htab }] },
    b.last.length + 1)

/-- The library function `flushNoDefers`: a non-empty incomplete cell is terminated, all
buffered lines are formatted (`format(0, 0, len(b.lines))`) and the state is reset.  The
bound handed to `format` is large enough (`flush_fuel_enough`). -/
def Writer.flushNoDefers (b : Writer) : Writer :=
  let b := if b.cell ≠ [] then (b.terminateCell false).1 else b
  let all := b.lines ++ [b.last]
  { output := b.output
      ++ format all.length (all.length + (all.map List.length).sum + 1) [] 0 all,
    cell := [], lines := [], last := [] }

/-- One iteration of the loop of `Write` outside an escape: a tab, vertical tab, newline
or form feed ends the cell; a newline or form feed also ends the line (`addLine`), and the
buffer is flushed on a form feed or when the line ended had a single cell.  Every other
byte belongs to the text of the cell.  (The escape byte `0xff` does not occur in
well-formed UTF-8, and `<`, `&` are ordinary text without the flag `FilterHTML`.) -/
def Writer.writeByte (b : Writer) (ch : Char) : Writer :=
  if ch = '\t' ∨ ch = '\x0b' ∨ ch = '\n' ∨ ch = '\x0c' then
    let (b, ncells) := b.terminateCell (ch = '\t')
    if ch = '\n' ∨ ch = '\x0c' then
      let b := { b with lines := b.lines ++ [b.last], last := [] }
      if ch = '\x0c' ∨ ncells = 1 then b.flushNoDefers else b
    else b
  else { b with cell := b.cell ++ [ch] }

/-- The library function `Write`. -/
def Writer.Write (b : Writer) (buf : Str) : Writer := buf.foldl Writer.writeByte b

/-- The library function `Flush`. -/
def Writer.Flush (b : Writer) : Writer := b.flushNoDefers

/-- The function `sortAndWrite` (lines 107-118) up to `writer.Flush()`: the value of
`wBuffer.String()`, which is then printed or handed to `tryWriteToHostFile`.  The
parameter `next` is the generator step of `sort.Sort`. -/
def sortAndWrite (lower : Char → Char) (next : Nat → Nat) (k8sHostname : Str)
    (entries : HostsList) : Str :=
  ((NewWriter.Write (hostEntries k8sHostname (sortSort lower next entries))).Flush).output

/-- Printable ASCII: the characters `0x20` to `0x7e`. -/
def printable (s : Str) : Prop := ∀ c ∈ s, 32 ≤ c.toNat ∧ c.toNat ≤ 126

/-- Text without a character that ends a cell or a line in `text/tabwriter`: no tab,
vertical tab, newline or form feed. -/
def plain (s : Str) : Prop := ∀ c ∈ s, ¬ (c = '\t' ∨ c = '\x0b' ∨ c = '\n' ∨ c = '\x0c')

/-- The text `s` padded on the right with spaces to `width` columns. -/
def padTo (width : Nat) (s : Str) : Str := s ++ List.replicate (width - s.length) ' '

/-- The greatest length of `address ++ " " ++ domain` over the rules. -/
def maxCellWidth (k8sHostname : Str) (entries : HostsList) : Nat :=
  (entries.map (fun r => (k8sHostname ++ [' '] ++ r.Domain).length)).foldr max 0

/-! ## File Sync: `tryWriteToHostFile` and the regular expression -/

/-- The constant `sectionStart` (line 48). -/
def sectionStart : Str := "# generated using k8s-ingress-hosts start #".toList

/-- The constant `sectionEnd` (line 49); it ends in a newline. -/
def sectionEnd : Str := "# generated using k8s-ingress-hosts end #\n".toList

/-- The end marker line without its newline, as the specification names it. -/
def endMarker : Str := "# generated using k8s-ingress-hosts end #".toList

/-- The value `block` of `tryWriteToHostFile` (line 86):
`fmt.Sprintf("%s\n%s\n%s", sectionStart, hostEntries, sectionEnd)`. -/
def block (hostEntries : Str) : Str :=
  sectionStart ++ ['\n'] ++ hostEntries ++ ['\n'] ++ sectionEnd

/-- The offset of the last occurrence of `pat` in `s`, if there is one. -/
def lastIndex (pat : Str) : Str → Option Nat
  | [] => if pat.isPrefixOf [] then some 0 else none
  | c :: s =>
    match lastIndex pat s with
    | some j => some (j + 1)
    | none => if pat.isPrefixOf (c :: s) then some 0 else none

/-- A match of `(?ms)sectionStart(.*)sectionEnd` (line 92) that begins at the first byte
of `s`: the text of group 1 and the text behind the match.  Neither marker contains a
character that is special in a regular expression, so both are literals; with the flag
`s` the dot matches every character, newline included; `.*` is greedy, so of all
occurrences of `sectionEnd` behind `sectionStart` the last one ends the match. -/
def matchHere (s : Str) : Option (Str × Str) :=
  if sectionStart.isPrefixOf s then
    match lastIndex sectionEnd (s.drop sectionStart.length) with
    | some j =>
      some ((s.drop sectionStart.length).take j,
        (s.drop sectionStart.length).drop (j + sectionEnd.length))
    | none => none
  else none

/-- The leftmost match of the regular expression in `s`: the text before the match, the
text of group 1 and the text behind the match. -/
def findMatch : Str → Option (Str × Str × Str)
  | [] => none
  | c :: s =>
    match matchHere (c :: s) with
    | some (group1, post) => some ([], group1, post)
    | none => (findMatch s).map (fun m => (c :: m.1, m.2.1, m.2.2))

/-- The number parsed by the library function `extract` from a name: the decimal value when
the name consists of ASCII digits, has no leading zero and stays below `1e8`
(`num = -1` otherwise, here `none`). -/
def parseNum (name : Str) : Option Nat :=
  if name.head? = some '0' ∧ 1 < name.length then none
  else
    name.foldl
      (fun num c =>
        match num with
        | none => none
        | some n =>
          if c.toNat < 48 ∨ 57 < c.toNat ∨ 100000000 ≤ n then none
          else some (n * 10 + (c.toNat - 48)))
      (some 0)

/-- The library function `extract` of package `regexp`: the name behind a `$`, either
`name` or `\x7bname\x7d`, where a name is a non-empty run of letters, digits and `_`
(`isWord`, standing for `unicode.IsLetter`, `unicode.IsDigit` and `_`).  The result is the
name, its number and the rest of the template; `none` when the reference is malformed. -/
def extract (isWord : Char → Bool) (str : Str) : Option (Str × Option Nat × Str) :=
  let brace := decide (str.head? = some '\x7b')
  let str := if brace then str.drop 1 else str
  let name := str.takeWhile isWord
  let rest := str.dropWhile isWord
  if name = [] then none
  else if brace then
    match rest with
    | '\x7d' :: rest => some (name, parseNum name, rest)
    | _ => none
  else some (name, parseNum name, rest)

/-- The text a reference stands for in `expand`: the regular expression has the groups
0 (the whole match) and 1, none of them named; any other number or name expands to the
empty text. -/
def reference (whole group1 : Str) (num : Option Nat) : Str :=
  match num with
  | some 0 => whole
  | some 1 => group1
  | _ => []

/-- The library function `expand` of package `regexp`, which `ReplaceAll` applies to the
replacement: text up to the next `$` is copied, `$$` gives `$`, `$name` and
`$\x7bname\x7d` give the text of the group, a malformed reference leaves the `$` as text.
Every step consumes a character of the template; `fuel` bounds the steps, and any bound
above the length of the template gives the same result (`expand_fuel`). -/
def expand (isWord : Char → Bool) (whole group1 : Str) : Nat → Str → Str
  | 0, template => template
  | _ + 1, [] => []
  | fuel + 1, c :: template =>
    if c = '$' then
      match template with
      | '$' :: template => '$' :: expand isWord whole group1 fuel template
      | _ =>
        match extract isWord template with
        | none => '$' :: expand isWord whole group1 fuel template
        | some (_, num, rest) =>
          reference whole group1 num ++ expand isWord whole group1 fuel rest
    else c :: expand isWord whole group1 fuel template

/-- The loop of the library function `ReplaceAll`: the text before the leftmost match is
copied, the match is replaced by the expanded replacement, and the search goes on behind
the match (a match is never empty here).  The bound `fuel` counts the matches; behind a
match of this expression there is no further one (`replaceAll_succ`). -/
def replaceAll (isWord : Char → Bool) (repl : Str) : Nat → Str → Str
  | 0, src => src
  | fuel + 1, src =>
    match findMatch src with
    | none => src
    | some (pre, group1, post) =>
      pre ++ expand isWord (sectionStart ++ group1 ++ sectionEnd) group1 (repl.length + 1) repl
        ++ replaceAll isWord repl fuel post

/-- The call `re.ReplaceAll(fileContent, block)` (line 94). -/
def ReplaceAll (isWord : Char → Bool) (src repl : Str) : Str :=
  replaceAll isWord repl (src.length + 1) src

/-- The function `tryWriteToHostFile` (lines 84-105) as the function from the content read
from the host file and the rendered entries to the content written back. -/
def tryWriteToHostFile (isWord : Char → Bool) (fileContent hostEntries : Str) : Str :=
  if (findMatch fileContent).isSome then
    ReplaceAll isWord fileContent (block hostEntries)
  else
    fileContent ++ block hostEntries

/-- The names of `expand` on ASCII text: ASCII letters, ASCII digits and `_`. -/
def asciiWord (c : Char) : Bool := c.isAlphanum || c = '_'

/-! ## Auxiliary definitions of the proofs -/

/-- The comparison made by `HostsList.Less` on two rules. -/
def ruleLess (lower : Char → Char) (x y : Rule) : Bool :=
  strLess (ToLower lower x.Domain) (ToLower lower y.Domain)

/-- The transposition of the indices `p` and `q`. -/
def tr (p q i : Nat) : Nat := if i = p then q else if i = q then p else i

/-- The slice `data[a:b]` is in order: no later element is less than an earlier one. -/
def SortedRange (lower : Char → Char) (d : HostsList) (a b : Nat) : Prop :=
  ∀ i j, a ≤ i → i < j → j < b → HostsList.Less lower d j i = false

/-- The list `d'` is `d` with the elements of the slice `[a, b)` rearranged: the
comparisons on `d'` are those on `d` after a map of the indices that keeps the slice and
fixes every index outside of it, and `d'` is a permutation of `d`. -/
def Frame (lower : Char → Char) (a b : Nat) (d d' : HostsList) : Prop :=
  d'.length = d.length ∧ (∃ σ : Nat → Nat,
    (∀ k, a ≤ k → k < b → a ≤ σ k ∧ σ k < b) ∧ (∀ k, (k < a ∨ b ≤ k) → σ k = k) ∧
    ∀ i j, HostsList.Less lower d' i j = HostsList.Less lower d (σ i) (σ j)) ∧ d'.Perm d

/-- No element of the slice `[a, b)` is less than the element before the slice. -/
def LowerBound (lower : Char → Char) (d : HostsList) (a b : Nat) : Prop :=
  0 < a → ∀ m, a ≤ m → m < b → HostsList.Less lower d m (a - 1) = false

/-- The node `k` of the heap `data[first : first+hi]` is not less than its children. -/
def HeapAt (lower : Char → Char) (d : HostsList) (first hi k : Nat) : Prop :=
  ∀ c, (c = 2 * k + 1 ∨ c = 2 * k + 2) → c < hi →
    HostsList.Less lower d (first + k) (first + c) = false

/-- The two cells of the line rendered for a rule: `address ++ " " ++ domain`, ended by
the tab, and `"# " ++ owner`, ended by the newline. -/
def ruleCells (k8sHostname : Str) (r : Rule) : List Cell :=
  [{ text := k8sHostname ++ [' '] ++ r.Domain, htab := true },
   { text := ['#', ' '] ++ r.Service, htab := false }]

/-- The text `pat` occurs in `s` at offset `k`. -/
def occursAt (pat s : Str) (k : Nat) : Prop := pat <+: s.drop k

/-- The number of steps `format` can still take on `lines` from column `column` on: one
per line and one per cell from that column on. -/
def formatSteps (column : Nat) (lines : List (List Cell)) : Nat :=
  (lines.map (fun row => row.length - column + 1)).sum

/-! ## Rule store: lemmas -/

theorem appendRules_eq (entries : HostsList) (name : Str) (rules : List IngressRule) :
    appendRules entries name rules
      = entries ++ rules.map (fun rule => ({ Domain := rule.Host, Service := name } : Rule)) := by
  unfold appendRules
  induction rules generalizing entries with
  | nil => simp
  | cons r rs ih => simp [List.foldl_cons, ih]

theorem initialListing_foldl_eq (items : List Ingress) (start : HostsList) :
    items.foldl (fun entries elem => appendRules entries elem.Name elem.Spec.Rules) start
      = start ++ (items.map (fun elem => elem.Spec.Rules.map
          (fun rule => ({ Domain := rule.Host, Service := elem.Name } : Rule)))).flatten := by
  induction items generalizing start with
  | nil => simp
  | cons it its ih =>
    rw [List.foldl_cons, ih, appendRules_eq]
    simp only [List.map_cons, List.flatten_cons, List.append_assoc]

theorem modified_cons_rules (entries : HostsList) (name : Str) (r : IngressRule)
    (rs : List IngressRule) :
    modified entries ⟨name, ⟨r :: rs⟩⟩
      = some (entries.map (fun entry =>
          if entry.Service = name then { entry with Domain := r.Host } else entry)) := by
  induction entries with
  | nil => simp [modified]
  | cons e es ih =>
    unfold modified
    by_cases h : e.Service = name
    · simp [h, ih]
    · simp [h, ih]

theorem modified_nil_rules (entries : HostsList) (name : Str) :
    modified entries ⟨name, ⟨[]⟩⟩
      = if entries.any (fun entry => entry.Service = name) then none else some entries := by
  induction entries with
  | nil => simp [modified]
  | cons e es ih =>
    unfold modified
    by_cases h : e.Service = name
    · simp [h]
    · simp only [h, if_false, ih, List.any_cons, decide_False, Bool.false_or]
      split <;> simp

theorem firstIndex_remove_eq_eraseP (p : Rule → Bool) (entries : HostsList) :
    (match firstIndex p entries with
      | some i => entries.take i ++ entries.drop (i + 1)
      | none => entries) = entries.eraseP p := by
  induction entries with
  | nil => simp [firstIndex]
  | cons e es ih =>
    rw [List.eraseP_cons]
    cases hp : p e with
    | true => simp [firstIndex, hp]
    | false =>
      cases hi : firstIndex p es with
      | none => rw [hi] at ih; simp [firstIndex, hp, hi, ← ih]
      | some i => rw [hi] at ih; simp [firstIndex, hp, hi, ← ih]

theorem deleteRule_eq_eraseP (entries : HostsList) (name host : Str) :
    deleteRule entries name host
      = entries.eraseP (fun entry => entry.Service = name ∧ entry.Domain = host) :=
  firstIndex_remove_eq_eraseP _ entries

theorem deleted_eq_foldl_eraseP (entries : HostsList) (name : Str) (rules : List IngressRule) :
    deleted entries ⟨name, ⟨rules⟩⟩
      = rules.foldl (fun entries rule =>
          entries.eraseP (fun entry => entry.Service = name ∧ entry.Domain = rule.Host))
          entries := by
  unfold deleted
  simp only [deleteRule_eq_eraseP]

theorem foldl_eraseP_sublist (name : Str) (rules : List IngressRule) (entries : HostsList) :
    (rules.foldl (fun entries rule =>
        entries.eraseP (fun entry => entry.Service = name ∧ entry.Domain = rule.Host))
        entries).Sublist entries := by
  induction rules generalizing entries with
  | nil => simp
  | cons r rs ih =>
    simp only [List.foldl_cons]
    exact (ih _).trans (List.eraseP_sublist _)

theorem filter_eraseP_of_imp (p q : Rule → Bool) (l : HostsList)
    (h : ∀ e, p e = true → q e = false) :
    (l.eraseP p).filter q = l.filter q := by
  induction l with
  | nil => simp
  | cons e es ih =>
    rw [List.eraseP_cons]
    cases hp : p e with
    | true => simp [List.filter_cons, h e hp]
    | false => simp [List.filter_cons, ih]

theorem foldl_eraseP_filter (name : Str) (rules : List IngressRule) (q : Rule → Bool)
    (hq : ∀ e, ∀ r ∈ rules, e.Service = name → e.Domain = r.Host → q e = false)
    (entries : HostsList) :
    (rules.foldl (fun entries rule =>
        entries.eraseP (fun entry => entry.Service = name ∧ entry.Domain = rule.Host))
        entries).filter q = entries.filter q := by
  induction rules generalizing entries with
  | nil => simp
  | cons r rs ih =>
    simp only [List.foldl_cons]
    rw [ih (fun e r' hr' => hq e r' (List.mem_cons_of_mem _ hr'))]
    apply filter_eraseP_of_imp
    intro e he
    simp only [decide_eq_true_eq] at he
    exact hq e r (List.mem_cons_self _ _) he.1 he.2

theorem foldl_eraseP_of_no_match (name : Str) (rules : List IngressRule) (entries : HostsList)
    (h : ∀ e ∈ entries, ∀ r ∈ rules, ¬ (e.Service = name ∧ e.Domain = r.Host)) :
    rules.foldl (fun entries rule =>
        entries.eraseP (fun entry => entry.Service = name ∧ entry.Domain = rule.Host))
        entries = entries := by
  induction rules with
  | nil => simp
  | cons r rs ih =>
    simp only [List.foldl_cons]
    rw [List.eraseP_of_forall_not]
    · exact ih (fun e he r' hr' => h e he r' (List.mem_cons_of_mem _ hr'))
    · intro e he
      simpa using h e he r (List.mem_cons_self _ _)


/-! ## Sorting: lemmas -/

theorem strLess_irrefl (a : Str) : strLess a a = false := by
  induction a with
  | nil => rfl
  | cons x xs ih => simp [strLess, ih]

theorem strLess_asymm (a b : Str) (h : strLess a b = true) : strLess b a = false := by
  induction a generalizing b with
  | nil => cases b <;> simp [strLess] at h ⊢
  | cons x xs ih =>
    cases b with
    | nil => simp [strLess] at h
    | cons y ys =>
      simp only [strLess] at h ⊢
      split_ifs at h ⊢ with h1 h2 h3
      all_goals first | omega | rfl | (exact ih ys h)

theorem strLess_negTrans (a b c : Str) (hab : strLess b a = false) (hbc : strLess c b = false) :
    strLess c a = false := by
  induction a generalizing b c with
  | nil => cases c <;> simp [strLess]
  | cons x xs ih =>
    cases b with
    | nil => simp [strLess] at hab
    | cons y ys =>
      cases c with
      | nil => simp [strLess] at hbc
      | cons z zs =>
        simp only [strLess] at hab hbc ⊢
        split_ifs at hab hbc ⊢ with h1 h2 h3 h4 h5 h6
        all_goals first | omega | rfl | (exact ih ys zs hab hbc)

theorem Swap_length (d : HostsList) (p q : Nat) : (HostsList.Swap d p q).length = d.length := by
  unfold HostsList.Swap
  split <;> simp

theorem Swap_perm (d : HostsList) (p q : Nat) : (HostsList.Swap d p q).Perm d := by
  unfold HostsList.Swap
  split
  · rename_i x y hx hy
    obtain ⟨hp, hxe⟩ := List.getElem?_eq_some_iff.mp hx
    obtain ⟨hq, hye⟩ := List.getElem?_eq_some_iff.mp hy
    rw [List.perm_iff_count]
    intro z
    have hq' : q < (d.set p y).length := by simpa using hq
    rw [List.count_set _ _ _ _ hq', List.count_set _ _ _ _ hp, List.getElem_set, hxe]
    have hxm : x ∈ d := hxe ▸ List.getElem_mem hp
    have hym : y ∈ d := hye ▸ List.getElem_mem hq
    have hcx : x = z → 1 ≤ d.count z := fun h => h ▸ List.count_pos_iff.mpr hxm
    have hcy : y = z → 1 ≤ d.count z := fun h => h ▸ List.count_pos_iff.mpr hym
    by_cases hpq : p = q
    · subst hpq
      have hxy : x = y := by rw [← hxe, ← hye]
      subst hxy
      simp only [if_true, beq_iff_eq]
      by_cases hz : x = z
      · have := hcx hz
        simp only [hz, if_true]
        omega
      · simp only [hz, if_false]
        omega
    · simp only [hpq, if_false, hye, beq_iff_eq]
      by_cases hz : x = z <;> by_cases hz' : y = z
      · have := hcx hz
        simp only [hz, hz', if_true]
        omega
      · have := hcx hz
        simp only [hz, hz', if_true, if_false]
        omega
      · have := hcy hz'
        simp only [hz, hz', if_true, if_false]
        omega
      · simp only [hz, hz', if_false]
        omega
  · exact List.Perm.refl _

theorem getElem?_Swap (d : HostsList) (p q k : Nat) (hp : p < d.length) (hq : q < d.length) :
    (HostsList.Swap d p q)[k]? = d[tr p q k]? := by
  unfold HostsList.Swap tr
  rw [List.getElem?_eq_getElem hp, List.getElem?_eq_getElem hq]
  simp only [List.getElem?_set, List.length_set]
  by_cases hkq : q = k
  · subst hkq
    by_cases hkp : q = p
    · subst hkp; simp [hq]
    · simp [hq, hkp, List.getElem?_eq_getElem hp]
  · by_cases hkp : p = k
    · subst hkp
      simp [hkq, hp, List.getElem?_eq_getElem hq]
    · have h1 : ¬ k = p := fun h => hkp h.symm
      have h2 : ¬ k = q := fun h => hkq h.symm
      simp [hkq, hkp, h1, h2]

theorem Less_Swap (lower : Char → Char) (d : HostsList) (p q i j : Nat)
    (hp : p < d.length) (hq : q < d.length) :
    HostsList.Less lower (HostsList.Swap d p q) i j
      = HostsList.Less lower d (tr p q i) (tr p q j) := by
  unfold HostsList.Less
  rw [getElem?_Swap d p q i hp hq, getElem?_Swap d p q j hp hq]

theorem Less_eq (lower : Char → Char) (d : HostsList) (i j : Nat)
    (hi : i < d.length) (hj : j < d.length) :
    HostsList.Less lower d i j = ruleLess lower d[i] d[j] := by
  unfold HostsList.Less
  rw [List.getElem?_eq_getElem hi, List.getElem?_eq_getElem hj]
  rfl

theorem Less_lt_length (lower : Char → Char) (d : HostsList) (i j : Nat)
    (h : HostsList.Less lower d i j = true) : i < d.length ∧ j < d.length := by
  unfold HostsList.Less at h
  split at h
  · rename_i x y hx hy
    exact ⟨(List.getElem?_eq_some_iff.mp hx).1, (List.getElem?_eq_some_iff.mp hy).1⟩
  · simp at h

theorem Less_asymm (lower : Char → Char) (d : HostsList) (i j : Nat)
    (h : HostsList.Less lower d i j = true) : HostsList.Less lower d j i = false := by
  obtain ⟨hi, hj⟩ := Less_lt_length lower d i j h
  rw [Less_eq lower d i j hi hj] at h
  rw [Less_eq lower d j i hj hi]
  exact strLess_asymm _ _ h

theorem Less_irrefl (lower : Char → Char) (d : HostsList) (i : Nat) :
    HostsList.Less lower d i i = false := by
  cases h : HostsList.Less lower d i i with
  | false => rfl
  | true => have := Less_asymm lower d i i h; rw [h] at this; exact this

theorem Less_negTrans (lower : Char → Char) (d : HostsList) (i j k : Nat) (hj : j < d.length)
    (hij : HostsList.Less lower d i j = false) (hjk : HostsList.Less lower d j k = false) :
    HostsList.Less lower d i k = false := by
  cases h : HostsList.Less lower d i k with
  | false => rfl
  | true =>
    obtain ⟨hi, hk⟩ := Less_lt_length lower d i k h
    rw [Less_eq lower d i j hi hj] at hij
    rw [Less_eq lower d j k hj hk] at hjk
    rw [Less_eq lower d i k hi hk] at h
    have := strLess_negTrans _ _ _ hjk hij
    unfold ruleLess at h
    rw [this] at h
    exact h.symm

theorem Less_trans (lower : Char → Char) (d : HostsList) (i j k : Nat)
    (hij : HostsList.Less lower d i j = true) (hjk : HostsList.Less lower d j k = true) :
    HostsList.Less lower d i k = true := by
  cases h : HostsList.Less lower d i k with
  | true => rfl
  | false =>
    have hkj := Less_asymm lower d j k hjk
    have := Less_negTrans lower d i k j (Less_lt_length lower d j k hjk).2 h hkj
    rw [hij] at this
    exact this.symm

/-- When `x` is less than `y` and `z` is not less than `y`, `z` is not less than `x`. -/
theorem Less_of_lt_of_ge (lower : Char → Char) (d : HostsList) (x y z : Nat)
    (hxy : HostsList.Less lower d x y = true) (hzy : HostsList.Less lower d z y = false) :
    HostsList.Less lower d z x = false := by
  cases h : HostsList.Less lower d z x with
  | false => rfl
  | true => have := Less_trans lower d z x y h hxy; rw [hzy] at this; exact this.symm

theorem tr_lt (p q i n : Nat) (hp : p < n) (hq : q < n) (hi : i < n) : tr p q i < n := by
  unfold tr; split_ifs <;> omega

theorem Frame.refl (lower : Char → Char) (a b : Nat) (d : HostsList) : Frame lower a b d d :=
  ⟨rfl, ⟨id, fun _ h1 h2 => ⟨h1, h2⟩, fun _ _ => rfl, fun _ _ => rfl⟩, List.Perm.refl d⟩

theorem Frame.trans (lower : Char → Char) (a b : Nat) (d₁ d₂ d₃ : HostsList)
    (h₁ : Frame lower a b d₁ d₂) (h₂ : Frame lower a b d₂ d₃) : Frame lower a b d₁ d₃ := by
  obtain ⟨hl₁, ⟨σ₁, hin₁, hout₁, hless₁⟩, hp₁⟩ := h₁
  obtain ⟨hl₂, ⟨σ₂, hin₂, hout₂, hless₂⟩, hp₂⟩ := h₂
  refine ⟨hl₂.trans hl₁, ⟨fun k => σ₁ (σ₂ k), ?_, ?_, ?_⟩, hp₂.trans hp₁⟩
  · intro k h1 h2
    obtain ⟨h3, h4⟩ := hin₂ k h1 h2
    exact hin₁ _ h3 h4
  · intro k hk
    show σ₁ (σ₂ k) = k
    rw [hout₂ k hk, hout₁ k hk]
  · intro i j
    rw [hless₂, hless₁]

theorem Frame.mono (lower : Char → Char) (a b a' b' : Nat) (d d' : HostsList)
    (h : Frame lower a b d d') (ha : a' ≤ a) (hb : b ≤ b') : Frame lower a' b' d d' := by
  obtain ⟨hl, ⟨σ, hin, hout, hless⟩, hp⟩ := h
  refine ⟨hl, ⟨σ, ?_, ?_, hless⟩, hp⟩
  · intro k h1 h2
    by_cases hk : a ≤ k ∧ k < b
    · obtain ⟨h3, h4⟩ := hin k hk.1 hk.2
      omega
    · rw [hout k (by omega)]
      exact ⟨h1, h2⟩
  · intro k hk
    exact hout k (by omega)

theorem Frame.swap (lower : Char → Char) (a b : Nat) (d : HostsList) (p q : Nat)
    (hb : b ≤ d.length) (hp : a ≤ p ∧ p < b) (hq : a ≤ q ∧ q < b) :
    Frame lower a b d (HostsList.Swap d p q) := by
  refine ⟨Swap_length d p q, ⟨tr p q, ?_, ?_, ?_⟩, Swap_perm d p q⟩
  · intro k h1 h2
    unfold tr; split_ifs <;> omega
  · intro k hk
    unfold tr; split_ifs <;> omega
  · intro i j
    exact Less_Swap lower d p q i j (by omega) (by omega)

theorem Frame.length (lower : Char → Char) (a b : Nat) (d d' : HostsList)
    (h : Frame lower a b d d') : d'.length = d.length := h.1

theorem Frame.perm (lower : Char → Char) (a b : Nat) (d d' : HostsList)
    (h : Frame lower a b d d') : d'.Perm d := h.2.2

/-- A comparison of every element of the slice with a fixed index outside is kept. -/
theorem Frame.left_out (lower : Char → Char) (a b : Nat) (d d' : HostsList)
    (h : Frame lower a b d d') (k : Nat) (hk : k < a ∨ b ≤ k) (v : Bool) (a' b' : Nat)
    (ha' : a ≤ a') (hb' : b' ≤ b)
    (hd : ∀ m, a ≤ m → m < b → HostsList.Less lower d m k = v) :
    ∀ m, a' ≤ m → m < b' → HostsList.Less lower d' m k = v := by
  obtain ⟨_, ⟨σ, hin, hout, hless⟩, _⟩ := h
  intro m h1 h2
  rw [hless, hout k hk]
  obtain ⟨h3, h4⟩ := hin m (by omega) (by omega)
  exact hd _ h3 h4

theorem Frame.right_out (lower : Char → Char) (a b : Nat) (d d' : HostsList)
    (h : Frame lower a b d d') (k : Nat) (hk : k < a ∨ b ≤ k) (v : Bool) (a' b' : Nat)
    (ha' : a ≤ a') (hb' : b' ≤ b)
    (hd : ∀ m, a ≤ m → m < b → HostsList.Less lower d k m = v) :
    ∀ m, a' ≤ m → m < b' → HostsList.Less lower d' k m = v := by
  obtain ⟨_, ⟨σ, hin, hout, hless⟩, _⟩ := h
  intro m h1 h2
  rw [hless, hout k hk]
  obtain ⟨h3, h4⟩ := hin m (by omega) (by omega)
  exact hd _ h3 h4

theorem Frame.out_out (lower : Char → Char) (a b : Nat) (d d' : HostsList)
    (h : Frame lower a b d d') (i j : Nat) (hi : i < a ∨ b ≤ i) (hj : j < a ∨ b ≤ j) :
    HostsList.Less lower d' i j = HostsList.Less lower d i j := by
  obtain ⟨_, ⟨σ, hin, hout, hless⟩, _⟩ := h
  rw [hless, hout i hi, hout j hj]

theorem Frame.lowerBound (lower : Char → Char) (a b : Nat) (d d' : HostsList)
    (h : Frame lower a b d d') (hlb : LowerBound lower d a b) : LowerBound lower d' a b := by
  intro ha
  exact Frame.left_out lower a b d d' h (a - 1) (by omega) false a b (Nat.le_refl _)
    (Nat.le_refl _) (hlb ha)

theorem Frame.sortedRange_out (lower : Char → Char) (a b : Nat) (d d' : HostsList)
    (h : Frame lower a b d d') (a' b' : Nat) (hout : b' ≤ a ∨ b ≤ a')
    (hs : SortedRange lower d a' b') : SortedRange lower d' a' b' := by
  intro i j h1 h2 h3
  rw [Frame.out_out lower a b d d' h j i (by omega) (by omega)]
  exact hs i j h1 h2 h3

theorem insertionSortInner_spec (lower : Char → Char) (a p : Nat) :
    ∀ (k : Nat) (d : HostsList), a + k ≤ p → p < d.length →
      (∀ i j, a ≤ i → i < j → j ≤ p → i ≠ a + k → j ≠ a + k →
        HostsList.Less lower d j i = false) →
      (∀ j, a + k < j → j ≤ p → HostsList.Less lower d (a + k) j = true) →
      Frame lower a (p + 1) d (insertionSortInner lower a k d)
        ∧ SortedRange lower (insertionSortInner lower a k d) a (p + 1) := by
  intro k
  induction k with
  | zero =>
    intro d _ _ hs hr
    refine ⟨Frame.refl _ _ _ _, ?_⟩
    intro i j h1 h2 h3
    by_cases hi : i = a
    · subst hi
      exact Less_asymm lower d _ _ (hr j (by omega) (by omega))
    · exact hs i j h1 h2 (by omega) (by omega) (by omega)
  | succ k ih =>
    intro d hk hp hs hr
    unfold insertionSortInner
    by_cases hlt : HostsList.Less lower d (a + k + 1) (a + k) = true
    · rw [if_pos hlt]
      have hswap : ∀ i j, HostsList.Less lower (HostsList.Swap d (a + k + 1) (a + k)) i j
          = HostsList.Less lower d (tr (a + k + 1) (a + k) i) (tr (a + k + 1) (a + k) j) :=
        fun i j => Less_Swap lower d _ _ i j (by omega) (by omega)
      have hfr : Frame lower a (p + 1) d (HostsList.Swap d (a + k + 1) (a + k)) :=
        Frame.swap lower a (p + 1) d _ _ (by omega) (by omega) (by omega)
      obtain ⟨h1, h2⟩ := ih (HostsList.Swap d (a + k + 1) (a + k)) (by omega)
        (by rw [Swap_length]; exact hp)
        (by
          intro i j hi hij hj hik hjk
          rw [hswap]
          unfold tr
          split_ifs with c1 c2 c3 c4 c5 c6 c7 c8
          all_goals first
            | omega
            | exact hs _ _ (by omega) (by omega) (by omega) (by omega) (by omega))
        (by
          intro j hj1 hj2
          rw [hswap]
          unfold tr
          split_ifs with c1 c2 c3 c4
          all_goals first
            | omega
            | exact hlt
            | exact hr _ (by omega) (by omega))
      exact ⟨Frame.trans lower _ _ _ _ _ hfr h1, h2⟩
    · rw [if_neg hlt]
      have hlt' : HostsList.Less lower d (a + k + 1) (a + k) = false := by
        simpa using hlt
      refine ⟨Frame.refl _ _ _ _, ?_⟩
      intro i j h1 h2 h3
      by_cases hj : j = a + k + 1
      · subst hj
        by_cases hi : i = a + k
        · subst hi; exact hlt'
        · exact Less_negTrans lower d _ (a + k) _ (by omega) hlt'
            (hs i (a + k) h1 (by omega) (by omega) (by omega) (by omega))
      · by_cases hi : i = a + k + 1
        · subst hi
          exact Less_asymm lower d _ _ (hr j (by omega) (by omega))
        · exact hs i j h1 h2 (by omega) (by omega) (by omega)

theorem insertionSort_foldl_spec (lower : Char → Char) (a : Nat) :
    ∀ (m s : Nat) (d : HostsList), 1 ≤ s → a + s + m ≤ d.length →
      SortedRange lower d a (a + s) →
      Frame lower a (a + s + m) d
          ((List.range' s m).foldl (fun data k => insertionSortInner lower a k data) d)
        ∧ SortedRange lower
          ((List.range' s m).foldl (fun data k => insertionSortInner lower a k data) d)
          a (a + s + m) := by
  intro m
  induction m with
  | zero =>
    intro s d _ _ hs
    exact ⟨Frame.refl _ _ _ _, hs⟩
  | succ m ih =>
    intro s d hs1 hlen hs
    rw [List.range'_succ, List.foldl_cons]
    obtain ⟨h1, h2⟩ := insertionSortInner_spec lower a (a + s) s d (Nat.le_refl _) (by omega)
      (fun i j hi hij hj _ hjs => hs i j hi hij (by omega))
      (fun j hj1 hj2 => by omega)
    have hlen1 : (insertionSortInner lower a s d).length = d.length := h1.1
    obtain ⟨h3, h4⟩ := ih (s + 1) (insertionSortInner lower a s d) (by omega)
      (by rw [hlen1]; omega) h2
    have e : a + (s + 1) + m = a + s + (m + 1) := by omega
    rw [e] at h3 h4
    exact ⟨Frame.trans lower _ _ _ _ _
      (Frame.mono lower _ _ _ _ _ _ h1 (Nat.le_refl _) (by omega)) h3, h4⟩

theorem insertionSort_spec (lower : Char → Char) (d : HostsList) (a b : Nat)
    (hab : a ≤ b) (hb : b ≤ d.length) :
    Frame lower a b d (insertionSort lower d a b)
      ∧ SortedRange lower (insertionSort lower d a b) a b := by
  unfold insertionSort
  by_cases h : b - a ≤ 1
  · have e : b - a - 1 = 0 := by omega
    rw [e]
    refine ⟨Frame.refl _ _ _ _, ?_⟩
    intro i j h1 h2 h3
    omega
  · obtain ⟨h1, h2⟩ := insertionSort_foldl_spec lower a (b - a - 1) 1 d (Nat.le_refl _)
      (by omega) (fun i j h1 h2 h3 => by omega)
    have e : a + 1 + (b - a - 1) = b := by omega
    rw [e] at h1 h2
    exact ⟨h1, h2⟩

theorem siftDown_loop_spec (lower : Char → Char) (first hi lo : Nat) :
    ∀ (fuel : Nat) (d : HostsList) (root : Nat), lo ≤ root → hi ≤ root + fuel →
      first + hi ≤ d.length →
      (∀ k, lo ≤ k → k ≠ root → HeapAt lower d first hi k) →
      (∀ k, lo ≤ k → (root = 2 * k + 1 ∨ root = 2 * k + 2) →
        ∀ c, (c = 2 * root + 1 ∨ c = 2 * root + 2) → c < hi →
          HostsList.Less lower d (first + k) (first + c) = false) →
      Frame lower (first + lo) (first + hi) d (siftDown lower first hi fuel d root)
        ∧ ∀ k, lo ≤ k → HeapAt lower (siftDown lower first hi fuel d root) first hi k := by
  intro fuel
  induction fuel with
  | zero =>
    intro d root _ hfuel _ hheap _
    refine ⟨Frame.refl _ _ _ _, ?_⟩
    intro k hk
    by_cases hkr : k = root
    · intro c hc hlt; omega
    · exact hheap k hk hkr
  | succ fuel ih =>
    intro d root hlo hfuel hlen hheap hG
    unfold siftDown
    by_cases hleaf : hi ≤ 2 * root + 1
    · rw [if_pos hleaf]
      refine ⟨Frame.refl _ _ _ _, ?_⟩
      intro k hk
      by_cases hkr : k = root
      · intro c hc hlt; omega
      · exact hheap k hk hkr
    · rw [if_neg hleaf]
      simp only []
      generalize hchild : (if 2 * root + 2 < hi ∧
          HostsList.Less lower d (first + (2 * root + 1)) (first + (2 * root + 2)) = true then
          2 * root + 2 else 2 * root + 1) = child
      have hc1 : child = 2 * root + 1 ∨ child = 2 * root + 2 := by
        rw [← hchild]; split_ifs <;> omega
      have hc2 : child < hi := by
        rw [← hchild]; split_ifs with h
        · exact h.1
        · omega
      have hc3 : ∀ c, (c = 2 * root + 1 ∨ c = 2 * root + 2) → c < hi →
          HostsList.Less lower d (first + child) (first + c) = false := by
        intro c hc hlt
        rw [← hchild]
        split_ifs with h
        · rcases hc with rfl | rfl
          · exact Less_asymm lower d _ _ h.2
          · exact Less_irrefl lower d _
        · rcases hc with rfl | rfl
          · exact Less_irrefl lower d _
          · have : ¬ HostsList.Less lower d (first + (2 * root + 1))
                (first + (2 * root + 2)) = true := fun h' => h ⟨hlt, h'⟩
            simpa using this
      by_cases hlt : HostsList.Less lower d (first + root) (first + child) = true
      · rw [if_pos hlt]
        have hswap : ∀ i j,
            HostsList.Less lower (HostsList.Swap d (first + root) (first + child)) i j
              = HostsList.Less lower d (tr (first + root) (first + child) i)
                  (tr (first + root) (first + child) j) :=
          fun i j => Less_Swap lower d _ _ i j (by omega) (by omega)
        have hfr : Frame lower (first + lo) (first + hi) d
            (HostsList.Swap d (first + root) (first + child)) :=
          Frame.swap lower _ _ d _ _ (by omega) (by omega) (by omega)
        obtain ⟨h1, h2⟩ := ih (HostsList.Swap d (first + root) (first + child)) child
          (by omega) (by omega) (by rw [Swap_length]; exact hlen)
          (by
            intro k hk hkc c hc hclt
            rw [hswap]
            by_cases hkr : k = root
            · subst hkr
              by_cases hcc : c = child
              · subst hcc
                have e1 : tr (first + k) (first + c) (first + k) = first + c := by
                  unfold tr; simp
                have e2 : tr (first + k) (first + c) (first + c) = first + k := by
                  unfold tr; split_ifs <;> omega
                rw [e1, e2]
                exact Less_asymm lower d _ _ hlt
              · have e1 : tr (first + k) (first + child) (first + k) = first + child := by
                  unfold tr; simp
                have e2 : tr (first + k) (first + child) (first + c) = first + c := by
                  unfold tr; split_ifs <;> omega
                rw [e1, e2]
                exact hc3 c hc hclt
            · have e1 : tr (first + root) (first + child) (first + k) = first + k := by
                unfold tr; split_ifs <;> omega
              rw [e1]
              by_cases hcr : c = root
              · subst hcr
                have e2 : tr (first + c) (first + child) (first + c) = first + child := by
                  unfold tr; simp
                rw [e2]
                exact hG k hk hc child hc1 hc2
              · have e2 : tr (first + root) (first + child) (first + c) = first + c := by
                  unfold tr; split_ifs <;> omega
                rw [e2]
                exact hheap k hk hkr c hc hclt)
          (by
            intro k hk hkc c hc hclt
            have hkr : k = root := by omega
            subst hkr
            rw [hswap]
            have e1 : tr (first + k) (first + child) (first + k) = first + child := by
              unfold tr; simp
            have e2 : tr (first + k) (first + child) (first + c) = first + c := by
              unfold tr; split_ifs <;> omega
            rw [e1, e2]
            exact hheap child (by omega) (by omega) c hc hclt)
        exact ⟨Frame.trans lower _ _ _ _ _ hfr h1, h2⟩
      · rw [if_neg hlt]
        have hlt' : HostsList.Less lower d (first + root) (first + child) = false := by
          simpa using hlt
        refine ⟨Frame.refl _ _ _ _, ?_⟩
        intro k hk
        by_cases hkr : k = root
        · subst hkr
          intro c hc hclt
          exact Less_negTrans lower d _ (first + child) _ (by omega) hlt' (hc3 c hc hclt)
        · exact hheap k hk hkr

theorem siftDown_spec (lower : Char → Char) (first hi lo fuel : Nat) (d : HostsList)
    (hfuel : hi ≤ lo + fuel) (hlen : first + hi ≤ d.length)
    (hheap : ∀ k, lo < k → HeapAt lower d first hi k) :
    Frame lower (first + lo) (first + hi) d (siftDown lower first hi fuel d lo)
      ∧ ∀ k, lo ≤ k → HeapAt lower (siftDown lower first hi fuel d lo) first hi k :=
  siftDown_loop_spec lower first hi lo fuel d lo (Nat.le_refl _) hfuel hlen
    (fun k hk hkr => hheap k (by omega)) (fun k hk hr => by omega)

theorem heapBuild_spec (lower : Char → Char) (first hi : Nat) :
    ∀ (count : Nat) (d : HostsList), first + hi ≤ d.length →
      (∀ k, count ≤ k → HeapAt lower d first hi k) →
      Frame lower first (first + hi) d (heapBuild lower first hi count d)
        ∧ ∀ k, HeapAt lower (heapBuild lower first hi count d) first hi k := by
  intro count
  induction count with
  | zero =>
    intro d _ hheap
    exact ⟨Frame.refl _ _ _ _, fun k => hheap k (Nat.zero_le _)⟩
  | succ i ih =>
    intro d hlen hheap
    unfold heapBuild
    obtain ⟨h1, h2⟩ := siftDown_spec lower first hi i hi d (by omega) hlen
      (fun k hk => hheap k (by omega))
    obtain ⟨h3, h4⟩ := ih (siftDown lower first hi hi d i) (by rw [h1.1]; exact hlen) h2
    exact ⟨Frame.trans lower _ _ _ _ _
      (Frame.mono lower _ _ _ _ _ _ h1 (by omega) (Nat.le_refl _)) h3, h4⟩

theorem heap_root_max (lower : Char → Char) (d : HostsList) (first hi : Nat)
    (hlen : first + hi ≤ d.length) (hheap : ∀ k, HeapAt lower d first hi k) :
    ∀ x, x < hi → HostsList.Less lower d first (first + x) = false := by
  intro x
  induction x using Nat.strong_induction_on with
  | _ x ih =>
    intro hx
    by_cases h0 : x = 0
    · subst h0; exact Less_irrefl lower d _
    · have hp := ih ((x - 1) / 2) (by omega) (by omega)
      have hc := hheap ((x - 1) / 2) x (by omega) hx
      exact Less_negTrans lower d _ (first + (x - 1) / 2) _ (by omega) hp hc

theorem heapPop_spec (lower : Char → Char) (first total : Nat) :
    ∀ (m : Nat) (d : HostsList), m ≤ total → first + total ≤ d.length →
      (∀ k, HeapAt lower d first m k) →
      SortedRange lower d (first + m) (first + total) →
      (∀ x y, x < m → m ≤ y → y < total →
        HostsList.Less lower d (first + y) (first + x) = false) →
      Frame lower first (first + m) d (heapPop lower first m d)
        ∧ SortedRange lower (heapPop lower first m d) first (first + total) := by
  intro m
  induction m with
  | zero =>
    intro d _ _ _ hs _
    exact ⟨Frame.refl _ _ _ _, hs⟩
  | succ i ih =>
    intro d hm hlen hheap hs hbound
    unfold heapPop
    have hmax := heap_root_max lower d first (i + 1) (by omega) hheap
    have hswap : ∀ u v, HostsList.Less lower (HostsList.Swap d first (first + i)) u v
        = HostsList.Less lower d (tr first (first + i) u) (tr first (first + i) v) :=
      fun u v => Less_Swap lower d _ _ u v (by omega) (by omega)
    have hfr1 : Frame lower first (first + (i + 1)) d (HostsList.Swap d first (first + i)) :=
      Frame.swap lower _ _ d _ _ (by omega) (by omega) (by omega)
    have hlen1 : (HostsList.Swap d first (first + i)).length = d.length := Swap_length _ _ _
    obtain ⟨h1, h2⟩ := siftDown_spec lower first i 0 i (HostsList.Swap d first (first + i))
      (by omega) (by rw [hlen1]; omega)
      (by
        intro k hk c hc hclt
        rw [hswap]
        have e1 : tr first (first + i) (first + k) = first + k := by
          unfold tr; split_ifs <;> omega
        have e2 : tr first (first + i) (first + c) = first + c := by
          unfold tr; split_ifs <;> omega
        rw [e1, e2]
        exact hheap k c hc (by omega))
    have h1' : Frame lower first (first + i) (HostsList.Swap d first (first + i))
        (siftDown lower first i i (HostsList.Swap d first (first + i)) 0) := by
      simpa using h1
    have hs1 : SortedRange lower (HostsList.Swap d first (first + i)) (first + i)
        (first + total) := by
      intro u v hu huv hv
      rw [hswap]
      by_cases hui : u = first + i
      · subst hui
        have e1 : tr first (first + i) v = v := by unfold tr; split_ifs <;> omega
        have e2 : tr first (first + i) (first + i) = first := by unfold tr; split_ifs <;> omega
        rw [e1, e2]
        have := hbound 0 (v - first) (by omega) (by omega) (by omega)
        have e3 : first + (v - first) = v := by omega
        rw [e3] at this
        simpa using this
      · have e1 : tr first (first + i) v = v := by unfold tr; split_ifs <;> omega
        have e2 : tr first (first + i) u = u := by unfold tr; split_ifs <;> omega
        rw [e1, e2]
        exact hs u v (by omega) huv hv
    have hb1 : ∀ y, i ≤ y → y < total → ∀ mm, first ≤ mm → mm < first + i →
        HostsList.Less lower (HostsList.Swap d first (first + i)) (first + y) mm = false := by
      intro y hy1 hy2 mm hm1 hm2
      rw [hswap]
      by_cases hyi : y = i
      · subst hyi
        have e1 : tr first (first + y) (first + y) = first := by unfold tr; split_ifs <;> omega
        rw [e1]
        by_cases hmf : mm = first
        · subst hmf
          have e2 : tr mm (mm + y) mm = mm + y := by unfold tr; simp
          rw [e2]
          exact hmax y (by omega)
        · have e2 : tr first (first + y) mm = mm := by unfold tr; split_ifs <;> omega
          rw [e2]
          have := hmax (mm - first) (by omega)
          have e3 : first + (mm - first) = mm := by omega
          rw [e3] at this
          exact this
      · have e1 : tr first (first + i) (first + y) = first + y := by
          unfold tr; split_ifs <;> omega
        rw [e1]
        by_cases hmf : mm = first
        · subst hmf
          have e2 : tr mm (mm + i) mm = mm + i := by unfold tr; simp
          rw [e2]
          exact hbound i y (by omega) (by omega) hy2
        · have e2 : tr first (first + i) mm = mm := by unfold tr; split_ifs <;> omega
          rw [e2]
          have := hbound (mm - first) y (by omega) (by omega) hy2
          have e3 : first + (mm - first) = mm := by omega
          rw [e3] at this
          exact this
    obtain ⟨h3, h4⟩ := ih (siftDown lower first i i (HostsList.Swap d first (first + i)) 0)
      (by omega) (by rw [h1.1, hlen1]; exact hlen)
      (fun k => h2 k (Nat.zero_le _))
      (Frame.sortedRange_out lower _ _ _ _ h1' _ _ (Or.inr (Nat.le_refl _)) hs1)
      (by
        intro x y hx hy1 hy2
        exact Frame.right_out lower _ _ _ _ h1' (first + y) (Or.inr (by omega)) false
          first (first + i) (Nat.le_refl _) (Nat.le_refl _) (hb1 y hy1 hy2) (first + x)
          (by omega) (by omega))
    refine ⟨?_, h4⟩
    exact Frame.trans lower _ _ _ _ _ hfr1
      (Frame.trans lower _ _ _ _ _
        (Frame.mono lower _ _ _ _ _ _ h1' (Nat.le_refl _) (by omega))
        (Frame.mono lower _ _ _ _ _ _ h3 (Nat.le_refl _) (by omega)))

theorem heapSort_spec (lower : Char → Char) (d : HostsList) (a b : Nat)
    (hab : a ≤ b) (hb : b ≤ d.length) :
    Frame lower a b d (heapSort lower d a b)
      ∧ SortedRange lower (heapSort lower d a b) a b := by
  unfold heapSort
  obtain ⟨h1, h2⟩ := heapBuild_spec lower a (b - a) ((b - a - 1) / 2 + 1) d (by omega)
    (fun k hk c hc hclt => by omega)
  obtain ⟨h3, h4⟩ := heapPop_spec lower a (b - a) (b - a)
    (heapBuild lower a (b - a) ((b - a - 1) / 2 + 1) d) (Nat.le_refl _)
    (by rw [h1.1]; omega) h2 (fun i j hi hij hj => by omega)
    (fun x y hx hy1 hy2 => by omega)
  have e : a + (b - a) = b := by omega
  rw [e] at h1 h3 h4
  exact ⟨Frame.trans lower _ _ _ _ _ h1 h3, h4⟩

theorem scanLess_spec (lower : Char → Char) (d : HostsList) (a lo : Nat) :
    ∀ (left i : Nat), (∀ k, lo ≤ k → k < i → HostsList.Less lower d k a = true) →
      i ≤ scanLess lower d a left i ∧ scanLess lower d a left i ≤ i + left
        ∧ (∀ k, lo ≤ k → k < scanLess lower d a left i → HostsList.Less lower d k a = true)
        ∧ (scanLess lower d a left i < i + left →
            HostsList.Less lower d (scanLess lower d a left i) a = false) := by
  intro left
  induction left with
  | zero => intro i h; unfold scanLess; exact ⟨Nat.le_refl _, Nat.le_refl _, h, fun h' => by omega⟩
  | succ left ih =>
    intro i h
    unfold scanLess
    by_cases hlt : HostsList.Less lower d i a = true
    · rw [if_pos hlt]
      obtain ⟨h1, h2, h3, h4⟩ := ih (i + 1) (fun k hk1 hk2 => by
        by_cases hki : k = i
        · rw [hki]; exact hlt
        · exact h k hk1 (by omega))
      exact ⟨by omega, by omega, h3, fun h' => h4 (by omega)⟩
    · rw [if_neg hlt]
      exact ⟨Nat.le_refl _, by omega, h, fun _ => by simpa using hlt⟩

theorem scanNotLess_spec (lower : Char → Char) (d : HostsList) (a hi : Nat) :
    ∀ (left j : Nat), left ≤ j →
      (∀ k, j < k → k < hi → HostsList.Less lower d k a = false) →
      scanNotLess lower d a left j ≤ j ∧ j ≤ scanNotLess lower d a left j + left
        ∧ (∀ k, scanNotLess lower d a left j < k → k < hi →
            HostsList.Less lower d k a = false)
        ∧ (j < scanNotLess lower d a left j + left →
            HostsList.Less lower d (scanNotLess lower d a left j) a = true) := by
  intro left
  induction left with
  | zero => intro j _ h; unfold scanNotLess; exact ⟨Nat.le_refl _, Nat.le_refl _, h, fun h' => by omega⟩
  | succ left ih =>
    intro j hj h
    unfold scanNotLess
    by_cases hlt : HostsList.Less lower d j a = true
    · rw [if_pos hlt]
      exact ⟨Nat.le_refl _, by omega, h, fun _ => hlt⟩
    · rw [if_neg hlt]
      obtain ⟨h1, h2, h3, h4⟩ := ih (j - 1) (by omega) (fun k hk1 hk2 => by
        by_cases hkj : k = j
        · rw [hkj]; simpa using hlt
        · exact h k (by omega) hk2)
      exact ⟨by omega, by omega, h3, fun h' => h4 (by omega)⟩

theorem partitionLoop_spec (lower : Char → Char) (a b : Nat) :
    ∀ (fuel : Nat) (d : HostsList) (i j : Nat), a + 1 ≤ i → i ≤ j + 1 → j < b →
      b ≤ d.length → j + 1 - i ≤ fuel →
      (∀ k, a + 1 ≤ k → k < i → HostsList.Less lower d k a = true) →
      (∀ k, j < k → k < b → HostsList.Less lower d k a = false) →
      Frame lower (a + 1) b d (partitionLoop lower a fuel d i j).1
        ∧ a ≤ (partitionLoop lower a fuel d i j).2 ∧ (partitionLoop lower a fuel d i j).2 < b
        ∧ (∀ k, a + 1 ≤ k → k ≤ (partitionLoop lower a fuel d i j).2 →
            HostsList.Less lower (partitionLoop lower a fuel d i j).1 k a = true)
        ∧ (∀ k, (partitionLoop lower a fuel d i j).2 < k → k < b →
            HostsList.Less lower (partitionLoop lower a fuel d i j).1 k a = false) := by
  intro fuel
  induction fuel with
  | zero =>
    intro d i j hi hij hj hb hfuel hpre hsuf
    unfold partitionLoop
    exact ⟨Frame.refl _ _ _ _, by omega, hj, fun k hk1 hk2 => hpre k hk1 (by omega), hsuf⟩
  | succ fuel ih =>
    intro d i j hi hij hj hb hfuel hpre hsuf
    unfold partitionLoop
    simp only []
    obtain ⟨s1, s2, s3, s4⟩ := scanLess_spec lower d a (a + 1) (j + 1 - i) i hpre
    generalize scanLess lower d a (j + 1 - i) i = i' at s1 s2 s3 s4 ⊢
    obtain ⟨t1, t2, t3, t4⟩ := scanNotLess_spec lower d a b (j + 1 - i') j (by omega) hsuf
    generalize scanNotLess lower d a (j + 1 - i') j = j' at t1 t2 t3 t4 ⊢
    by_cases hji : j' < i'
    · rw [if_pos hji]
      exact ⟨Frame.refl _ _ _ _, by omega, by omega,
        fun k hk1 hk2 => s3 k hk1 (by omega), t3⟩
    · rw [if_neg hji]
      have hi'f : HostsList.Less lower d i' a = false := s4 (by omega)
      have hj't : HostsList.Less lower d j' a = true := t4 (by omega)
      have hne : i' ≠ j' := by
        intro h; rw [h, hj't] at hi'f; exact absurd hi'f (by simp)
      have hswap : ∀ u v, HostsList.Less lower (HostsList.Swap d i' j') u v
          = HostsList.Less lower d (tr i' j' u) (tr i' j' v) :=
        fun u v => Less_Swap lower d _ _ u v (by omega) (by omega)
      have hfr : Frame lower (a + 1) b d (HostsList.Swap d i' j') :=
        Frame.swap lower _ _ d _ _ hb (by omega) (by omega)
      have tra : tr i' j' a = a := by unfold tr; split_ifs <;> omega
      obtain ⟨r1, r2, r3, r4, r5⟩ := ih (HostsList.Swap d i' j') (i' + 1) (j' - 1)
        (by omega) (by omega) (by omega) (by rw [Swap_length]; exact hb) (by omega)
        (by
          intro k hk1 hk2
          rw [hswap, tra]
          by_cases hki : k = i'
          · have e : tr i' j' k = j' := by unfold tr; split_ifs <;> omega
            rw [e]; exact hj't
          · have e : tr i' j' k = k := by unfold tr; split_ifs <;> omega
            rw [e]; exact s3 k hk1 (by omega))
        (by
          intro k hk1 hk2
          rw [hswap, tra]
          by_cases hkj : k = j'
          · have e : tr i' j' k = i' := by unfold tr; split_ifs <;> omega
            rw [e]; exact hi'f
          · have e : tr i' j' k = k := by unfold tr; split_ifs <;> omega
            rw [e]; exact t3 k (by omega) hk2)
      exact ⟨Frame.trans lower _ _ _ _ _ hfr r1, r2, r3, r4, r5⟩

theorem partitionLoop_succ (lower : Char → Char) (a fuel : Nat) (d : HostsList) (i j : Nat) :
    partitionLoop lower a (fuel + 1) d i j
      = if scanNotLess lower d a (j + 1 - scanLess lower d a (j + 1 - i) i) j
            < scanLess lower d a (j + 1 - i) i then
          (d, scanNotLess lower d a (j + 1 - scanLess lower d a (j + 1 - i) i) j)
        else
          partitionLoop lower a fuel
            (HostsList.Swap d (scanLess lower d a (j + 1 - i) i)
              (scanNotLess lower d a (j + 1 - scanLess lower d a (j + 1 - i) i) j))
            (scanLess lower d a (j + 1 - i) i + 1)
            (scanNotLess lower d a (j + 1 - scanLess lower d a (j + 1 - i) i) j - 1) := rfl

theorem partition_eq_loop (lower : Char → Char) (d : HostsList) (a b pivot : Nat) :
    (partition lower d a b pivot).1
        = HostsList.Swap
            (partitionLoop lower a (b - a + 1) (HostsList.Swap d a pivot) (a + 1) (b - 1)).1
            (partitionLoop lower a (b - a + 1) (HostsList.Swap d a pivot) (a + 1) (b - 1)).2 a
      ∧ (partition lower d a b pivot).2.1
        = (partitionLoop lower a (b - a + 1) (HostsList.Swap d a pivot) (a + 1) (b - 1)).2 := by
  unfold partition
  rw [partitionLoop_succ]
  simp only []
  split_ifs
  · exact ⟨rfl, rfl⟩
  · exact ⟨rfl, rfl⟩

theorem partition_spec (lower : Char → Char) (d : HostsList) (a b pivot : Nat)
    (hab : a < b) (hb : b ≤ d.length) (hp : a ≤ pivot ∧ pivot < b) :
    Frame lower a b d (partition lower d a b pivot).1
      ∧ a ≤ (partition lower d a b pivot).2.1 ∧ (partition lower d a b pivot).2.1 < b
      ∧ (∀ k, a ≤ k → k < (partition lower d a b pivot).2.1 →
          HostsList.Less lower (partition lower d a b pivot).1 k
            (partition lower d a b pivot).2.1 = true)
      ∧ (∀ k, (partition lower d a b pivot).2.1 < k → k < b →
          HostsList.Less lower (partition lower d a b pivot).1 k
            (partition lower d a b pivot).2.1 = false) := by
  obtain ⟨e1, e2⟩ := partition_eq_loop lower d a b pivot
  rw [e1, e2]
  have hfr0 : Frame lower a b d (HostsList.Swap d a pivot) :=
    Frame.swap lower _ _ d _ _ hb (by omega) hp
  obtain ⟨r1, r2, r3, r4, r5⟩ := partitionLoop_spec lower a b (b - a + 1)
    (HostsList.Swap d a pivot) (a + 1) (b - 1) (Nat.le_refl _) (by omega) (by omega)
    (by rw [Swap_length]; exact hb) (by omega) (fun k hk1 hk2 => by omega)
    (fun k hk1 hk2 => by omega)
  generalize partitionLoop lower a (b - a + 1) (HostsList.Swap d a pivot) (a + 1) (b - 1) = r
    at r1 r2 r3 r4 r5 ⊢
  obtain ⟨dl, jf⟩ := r
  simp only at r1 r2 r3 r4 r5 ⊢
  have hlen : dl.length = d.length := by rw [r1.1, Swap_length]
  have hswap : ∀ u v, HostsList.Less lower (HostsList.Swap dl jf a) u v
      = HostsList.Less lower dl (tr jf a u) (tr jf a v) :=
    fun u v => Less_Swap lower dl _ _ u v (by omega) (by omega)
  have hfr2 : Frame lower a b dl (HostsList.Swap dl jf a) :=
    Frame.swap lower _ _ dl _ _ (by omega) (by omega) (by omega)
  have trj : tr jf a jf = a := by unfold tr; simp
  refine ⟨Frame.trans lower _ _ _ _ _ hfr0
    (Frame.trans lower _ _ _ _ _ (Frame.mono lower _ _ _ _ _ _ r1 (by omega) (Nat.le_refl _))
      hfr2), r2, r3, ?_, ?_⟩
  · intro k hk1 hk2
    rw [hswap, trj]
    by_cases hka : k = a
    · have e : tr jf a k = jf := by unfold tr; split_ifs <;> omega
      rw [e]; exact r4 jf (by omega) (Nat.le_refl _)
    · have e : tr jf a k = k := by unfold tr; split_ifs <;> omega
      rw [e]; exact r4 k (by omega) (by omega)
  · intro k hk1 hk2
    rw [hswap, trj]
    have e : tr jf a k = k := by unfold tr; split_ifs <;> omega
    rw [e]; exact r5 k hk1 hk2

theorem scanNotGreater_spec (lower : Char → Char) (d : HostsList) (a lo : Nat) :
    ∀ (left i : Nat), (∀ k, lo ≤ k → k < i → HostsList.Less lower d a k = false) →
      i ≤ scanNotGreater lower d a left i ∧ scanNotGreater lower d a left i ≤ i + left
        ∧ (∀ k, lo ≤ k → k < scanNotGreater lower d a left i →
            HostsList.Less lower d a k = false)
        ∧ (scanNotGreater lower d a left i < i + left →
            HostsList.Less lower d a (scanNotGreater lower d a left i) = true) := by
  intro left
  induction left with
  | zero => intro i h; unfold scanNotGreater; exact ⟨Nat.le_refl _, Nat.le_refl _, h, fun h' => by omega⟩
  | succ left ih =>
    intro i h
    unfold scanNotGreater
    by_cases hlt : HostsList.Less lower d a i = true
    · rw [if_pos hlt]
      exact ⟨Nat.le_refl _, by omega, h, fun _ => hlt⟩
    · rw [if_neg hlt]
      obtain ⟨h1, h2, h3, h4⟩ := ih (i + 1) (fun k hk1 hk2 => by
        by_cases hki : k = i
        · rw [hki]; simpa using hlt
        · exact h k hk1 (by omega))
      exact ⟨by omega, by omega, h3, fun h' => h4 (by omega)⟩

theorem scanGreater_spec (lower : Char → Char) (d : HostsList) (a hi : Nat) :
    ∀ (left j : Nat), left ≤ j →
      (∀ k, j < k → k < hi → HostsList.Less lower d a k = true) →
      scanGreater lower d a left j ≤ j ∧ j ≤ scanGreater lower d a left j + left
        ∧ (∀ k, scanGreater lower d a left j < k → k < hi →
            HostsList.Less lower d a k = true)
        ∧ (j < scanGreater lower d a left j + left →
            HostsList.Less lower d a (scanGreater lower d a left j) = false) := by
  intro left
  induction left with
  | zero => intro j _ h; unfold scanGreater; exact ⟨Nat.le_refl _, Nat.le_refl _, h, fun h' => by omega⟩
  | succ left ih =>
    intro j hj h
    unfold scanGreater
    by_cases hlt : HostsList.Less lower d a j = true
    · rw [if_pos hlt]
      obtain ⟨h1, h2, h3, h4⟩ := ih (j - 1) (by omega) (fun k hk1 hk2 => by
        by_cases hkj : k = j
        · rw [hkj]; exact hlt
        · exact h k (by omega) hk2)
      exact ⟨by omega, by omega, h3, fun h' => h4 (by omega)⟩
    · rw [if_neg hlt]
      exact ⟨Nat.le_refl _, by omega, h, fun _ => by simpa using hlt⟩

theorem partitionEqualLoop_spec (lower : Char → Char) (a b : Nat) :
    ∀ (fuel : Nat) (d : HostsList) (i j : Nat), a + 1 ≤ i → i ≤ j + 1 → j < b →
      b ≤ d.length → j + 1 - i < fuel →
      (∀ k, a + 1 ≤ k → k < i → HostsList.Less lower d a k = false) →
      (∀ k, j < k → k < b → HostsList.Less lower d a k = true) →
      Frame lower (a + 1) b d (partitionEqualLoop lower a fuel d i j).1
        ∧ a + 1 ≤ (partitionEqualLoop lower a fuel d i j).2
        ∧ (partitionEqualLoop lower a fuel d i j).2 ≤ b
        ∧ (∀ k, a + 1 ≤ k → k < (partitionEqualLoop lower a fuel d i j).2 →
            HostsList.Less lower (partitionEqualLoop lower a fuel d i j).1 a k = false)
        ∧ (∀ k, (partitionEqualLoop lower a fuel d i j).2 ≤ k → k < b →
            HostsList.Less lower (partitionEqualLoop lower a fuel d i j).1 a k = true) := by
  intro fuel
  induction fuel with
  | zero => intro d i j hi hij hj hb hfuel; omega
  | succ fuel ih =>
    intro d i j hi hij hj hb hfuel hpre hsuf
    unfold partitionEqualLoop
    simp only []
    obtain ⟨s1, s2, s3, s4⟩ := scanNotGreater_spec lower d a (a + 1) (j + 1 - i) i hpre
    generalize scanNotGreater lower d a (j + 1 - i) i = i' at s1 s2 s3 s4 ⊢
    obtain ⟨t1, t2, t3, t4⟩ := scanGreater_spec lower d a b (j + 1 - i') j (by omega) hsuf
    generalize scanGreater lower d a (j + 1 - i') j = j' at t1 t2 t3 t4 ⊢
    by_cases hji : j' < i'
    · rw [if_pos hji]
      exact ⟨Frame.refl _ _ _ _, by omega, by omega, s3,
        fun k hk1 hk2 => t3 k (by omega) hk2⟩
    · rw [if_neg hji]
      have hi't : HostsList.Less lower d a i' = true := s4 (by omega)
      have hj'f : HostsList.Less lower d a j' = false := t4 (by omega)
      have hne : i' ≠ j' := by
        intro h; rw [h, hj'f] at hi't; exact absurd hi't (by simp)
      have hswap : ∀ u v, HostsList.Less lower (HostsList.Swap d i' j') u v
          = HostsList.Less lower d (tr i' j' u) (tr i' j' v) :=
        fun u v => Less_Swap lower d _ _ u v (by omega) (by omega)
      have hfr : Frame lower (a + 1) b d (HostsList.Swap d i' j') :=
        Frame.swap lower _ _ d _ _ hb (by omega) (by omega)
      have tra : tr i' j' a = a := by unfold tr; split_ifs <;> omega
      obtain ⟨r1, r2, r3, r4, r5⟩ := ih (HostsList.Swap d i' j') (i' + 1) (j' - 1)
        (by omega) (by omega) (by omega) (by rw [Swap_length]; exact hb) (by omega)
        (by
          intro k hk1 hk2
          rw [hswap, tra]
          by_cases hki : k = i'
          · have e : tr i' j' k = j' := by unfold tr; split_ifs <;> omega
            rw [e]; exact hj'f
          · have e : tr i' j' k = k := by unfold tr; split_ifs <;> omega
            rw [e]; exact s3 k hk1 (by omega))
        (by
          intro k hk1 hk2
          rw [hswap, tra]
          by_cases hkj : k = j'
          · have e : tr i' j' k = i' := by unfold tr; split_ifs <;> omega
            rw [e]; exact hi't
          · have e : tr i' j' k = k := by unfold tr; split_ifs <;> omega
            rw [e]; exact t3 k (by omega) hk2)
      exact ⟨Frame.trans lower _ _ _ _ _ hfr r1, r2, r3, r4, r5⟩

theorem partitionEqual_spec (lower : Char → Char) (d : HostsList) (a b pivot : Nat)
    (hab : a < b) (hb : b ≤ d.length) (hp : a ≤ pivot ∧ pivot < b) :
    Frame lower a b d (partitionEqual lower d a b pivot).1
      ∧ a + 1 ≤ (partitionEqual lower d a b pivot).2
      ∧ (partitionEqual lower d a b pivot).2 ≤ b
      ∧ (∀ k, a ≤ k → k < (partitionEqual lower d a b pivot).2 →
          HostsList.Less lower (partitionEqual lower d a b pivot).1 a k = false)
      ∧ (∀ k, (partitionEqual lower d a b pivot).2 ≤ k → k < b →
          HostsList.Less lower (partitionEqual lower d a b pivot).1 a k = true)
      ∧ (∀ k, k < a →
          HostsList.Less lower (partitionEqual lower d a b pivot).1 k a
            = HostsList.Less lower d k pivot) := by
  unfold partitionEqual
  have hfr0 : Frame lower a b d (HostsList.Swap d a pivot) :=
    Frame.swap lower _ _ d _ _ hb (by omega) hp
  obtain ⟨r1, r2, r3, r4, r5⟩ := partitionEqualLoop_spec lower a b (b - a + 1)
    (HostsList.Swap d a pivot) (a + 1) (b - 1) (Nat.le_refl _) (by omega) (by omega)
    (by rw [Swap_length]; exact hb) (by omega) (fun k hk1 hk2 => by omega)
    (fun k hk1 hk2 => by omega)
  refine ⟨Frame.trans lower _ _ _ _ _ hfr0
    (Frame.mono lower _ _ _ _ _ _ r1 (by omega) (Nat.le_refl _)), r2, r3, ?_, r5, ?_⟩
  · intro k hk1 hk2
    by_cases hka : k = a
    · rw [hka]; exact Less_irrefl lower _ _
    · exact r4 k (by omega) hk2
  · intro k hk
    rw [Frame.out_out lower _ _ _ _ r1 k a (by omega) (by omega),
      Less_Swap lower d a pivot k a (by omega) (by omega)]
    have e1 : tr a pivot k = k := by unfold tr; split_ifs <;> omega
    have e2 : tr a pivot a = pivot := by unfold tr; simp
    rw [e1, e2]

theorem tr_left (p q : Nat) : tr p q p = q := by unfold tr; simp

theorem tr_right (p q : Nat) : tr p q q = p := by
  unfold tr
  by_cases h : q = p
  · rw [if_pos h]; exact h
  · rw [if_neg h, if_pos rfl]

theorem tr_of_ne (p q i : Nat) (hp : i ≠ p) (hq : i ≠ q) : tr p q i = i := by
  unfold tr; rw [if_neg hp, if_neg hq]

theorem shiftLeft_eq (lower : Char → Char) (a : Nat) :
    ∀ (k : Nat) (d : HostsList), a + k < d.length →
      (0 < a → ∀ m, a ≤ m → m ≤ a + k → HostsList.Less lower d m (a - 1) = false) →
      insertionSortInner lower 0 (a + k) d = insertionSortInner lower a k d := by
  intro k
  induction k with
  | zero =>
    intro d _ hlb
    cases a with
    | zero => rfl
    | succ a' =>
      show insertionSortInner lower 0 (a' + 1) d = insertionSortInner lower (a' + 1) 0 d
      unfold insertionSortInner
      have := hlb (by omega) (a' + 1) (Nat.le_refl _) (by omega)
      simp only [Nat.add_sub_cancel] at this
      simp only [Nat.zero_add, this]
      rfl
  | succ k ih =>
    intro d hlen hlb
    show insertionSortInner lower 0 (a + k + 1) d = insertionSortInner lower a (k + 1) d
    unfold insertionSortInner
    simp only [Nat.zero_add]
    by_cases hlt : HostsList.Less lower d (a + k + 1) (a + k) = true
    · rw [if_pos hlt, if_pos hlt]
      apply ih
      · rw [Swap_length]; omega
      · intro ha m hm1 hm2
        rw [Less_Swap lower d _ _ _ _ (by omega) (by omega),
          tr_of_ne _ _ (a - 1) (by omega) (by omega)]
        apply hlb ha
        · unfold tr; split_ifs <;> omega
        · unfold tr; split_ifs <;> omega
    · rw [if_neg hlt, if_neg hlt]

theorem scanOrdered_spec (lower : Char → Char) (d : HostsList) (a : Nat) :
    ∀ (left i : Nat), a + 1 ≤ i → i + left ≤ d.length → SortedRange lower d a i →
      i ≤ scanOrdered lower d left i ∧ scanOrdered lower d left i ≤ i + left
        ∧ SortedRange lower d a (scanOrdered lower d left i)
        ∧ (scanOrdered lower d left i < i + left →
            HostsList.Less lower d (scanOrdered lower d left i)
              (scanOrdered lower d left i - 1) = true) := by
  intro left
  induction left with
  | zero =>
    intro i _ _ hs
    unfold scanOrdered
    exact ⟨Nat.le_refl _, Nat.le_refl _, hs, fun h => by omega⟩
  | succ left ih =>
    intro i hi hlen hs
    unfold scanOrdered
    by_cases hlt : HostsList.Less lower d i (i - 1) = true
    · rw [if_pos hlt]
      exact ⟨Nat.le_refl _, by omega, hs, fun _ => hlt⟩
    · rw [if_neg hlt]
      have hlt' : HostsList.Less lower d i (i - 1) = false := by simpa using hlt
      obtain ⟨h1, h2, h3, h4⟩ := ih (i + 1) (by omega) (by omega) (by
        intro u v hu huv hv
        by_cases hvi : v = i
        · subst hvi
          by_cases hui : u = v - 1
          · subst hui; exact hlt'
          · exact Less_negTrans lower d _ (v - 1) _ (by omega) hlt'
              (hs u (v - 1) hu (by omega) (by omega))
        · exact hs u v hu huv (by omega))
      exact ⟨by omega, by omega, h3, fun h' => h4 (by omega)⟩

theorem shiftRight_spec (lower : Char → Char) :
    ∀ (left : Nat) (d : HostsList) (j : Nat), 1 ≤ j → j + left ≤ d.length →
      Frame lower (j - 1) (j + left) d (shiftRight lower left d j) := by
  intro left
  induction left with
  | zero => intro d j _ _; unfold shiftRight; exact Frame.refl _ _ _ _
  | succ left ih =>
    intro d j hj hlen
    unfold shiftRight
    by_cases hlt : HostsList.Less lower d j (j - 1) = true
    · rw [if_pos hlt]
      have h1 : Frame lower (j - 1) (j + (left + 1)) d (HostsList.Swap d j (j - 1)) :=
        Frame.swap lower _ _ d _ _ hlen (by omega) (by omega)
      have h2 := ih (HostsList.Swap d j (j - 1)) (j + 1) (by omega)
        (by rw [Swap_length]; omega)
      exact Frame.trans lower _ _ _ _ _ h1
        (Frame.mono lower _ _ _ _ _ _ h2 (by omega) (by omega))
    · rw [if_neg hlt]; exact Frame.refl _ _ _ _

theorem partialInsertionSortLoop_spec (lower : Char → Char) (a b : Nat) :
    ∀ (steps : Nat) (d : HostsList) (i : Nat), a + 1 ≤ i → i ≤ b → b ≤ d.length →
      SortedRange lower d a i → LowerBound lower d a b →
      Frame lower a b d (partialInsertionSortLoop lower a b steps d i).1
        ∧ ((partialInsertionSortLoop lower a b steps d i).2 = true →
            SortedRange lower (partialInsertionSortLoop lower a b steps d i).1 a b) := by
  intro steps
  induction steps with
  | zero =>
    intro d i _ _ _ _ _
    unfold partialInsertionSortLoop
    exact ⟨Frame.refl _ _ _ _, fun h => by simp at h⟩
  | succ steps ih =>
    intro d i hi hib hb hs hlb
    unfold partialInsertionSortLoop
    simp only []
    obtain ⟨s1, s2, s3, s4⟩ := scanOrdered_spec lower d a (b - i) i hi (by omega) hs
    generalize scanOrdered lower d (b - i) i = i' at s1 s2 s3 s4 ⊢
    by_cases hib' : i' = b
    · rw [if_pos hib']
      exact ⟨Frame.refl _ _ _ _, fun _ => hib' ▸ s3⟩
    · rw [if_neg hib']
      by_cases hshort : b - a < 50
      · rw [if_pos hshort]
        exact ⟨Frame.refl _ _ _ _, fun h => by simp at h⟩
      · rw [if_neg hshort]
        have hf1 : Frame lower a b d (HostsList.Swap d i' (i' - 1)) :=
          Frame.swap lower _ _ d _ _ hb (by omega) (by omega)
        have hl1 : (HostsList.Swap d i' (i' - 1)).length = d.length := Swap_length _ _ _
        have hs1 : SortedRange lower (HostsList.Swap d i' (i' - 1)) a (i' - 1) := by
          intro u v hu huv hv
          rw [Less_Swap lower d _ _ _ _ (by omega) (by omega),
            tr_of_ne _ _ v (by omega) (by omega), tr_of_ne _ _ u (by omega) (by omega)]
          exact s3 u v hu huv (by omega)
        have hlb1 : LowerBound lower (HostsList.Swap d i' (i' - 1)) a b :=
          Frame.lowerBound lower _ _ _ _ hf1 hlb
        generalize HostsList.Swap d i' (i' - 1) = d1 at hf1 hl1 hs1 hlb1 ⊢
        have h2 : Frame lower a b d1
              (if 2 ≤ i' - a then insertionSortInner lower 0 (i' - 1) d1 else d1)
            ∧ SortedRange lower
              (if 2 ≤ i' - a then insertionSortInner lower 0 (i' - 1) d1 else d1) a i' := by
          by_cases h2 : 2 ≤ i' - a
          · rw [if_pos h2]
            have e : i' - 1 = a + (i' - 1 - a) := by omega
            rw [e, shiftLeft_eq lower a (i' - 1 - a) d1 (by omega)
              (fun ha m hm1 hm2 => hlb1 ha m hm1 (by omega))]
            obtain ⟨q1, q2⟩ := insertionSortInner_spec lower a (i' - 1) (i' - 1 - a) d1
              (by omega) (by omega)
              (fun u v hu huv hv hu' hv' => hs1 u v hu huv (by omega))
              (fun v hv1 hv2 => by omega)
            have e2 : i' - 1 + 1 = i' := by omega
            rw [e2] at q1 q2
            exact ⟨Frame.mono lower _ _ _ _ _ _ q1 (Nat.le_refl _) (by omega), q2⟩
          · rw [if_neg h2]
            exact ⟨Frame.refl _ _ _ _, fun u v hu huv hv => by omega⟩
        obtain ⟨hf2, hs2⟩ := h2
        generalize (if 2 ≤ i' - a then insertionSortInner lower 0 (i' - 1) d1 else d1) = d2
          at hf2 hs2 ⊢
        have hl2 : d2.length = d.length := by rw [hf2.1, hl1]
        have h3 : Frame lower i' b d2
            (if 2 ≤ b - i' then shiftRight lower (b - (i' + 1)) d2 (i' + 1) else d2) := by
          by_cases h3 : 2 ≤ b - i'
          · rw [if_pos h3]
            have := shiftRight_spec lower (b - (i' + 1)) d2 (i' + 1) (by omega) (by omega)
            have e1 : i' + 1 - 1 = i' := by omega
            have e2 : i' + 1 + (b - (i' + 1)) = b := by omega
            rw [e1, e2] at this
            exact this
          · rw [if_neg h3]; exact Frame.refl _ _ _ _
        have hs3 := Frame.sortedRange_out lower _ _ _ _ h3 a i' (Or.inl (Nat.le_refl _)) hs2
        have hf3 := Frame.trans lower _ _ _ _ _ hf1
          (Frame.trans lower _ _ _ _ _ hf2
            (Frame.mono lower _ _ _ _ _ _ h3 (by omega) (Nat.le_refl _)))
        generalize (if 2 ≤ b - i' then shiftRight lower (b - (i' + 1)) d2 (i' + 1) else d2)
          = d3 at h3 hs3 hf3 ⊢
        obtain ⟨r1, r2⟩ := ih d3 i' (by omega) (by omega) (by rw [hf3.1]; exact hb) hs3
          (Frame.lowerBound lower _ _ _ _ hf3 hlb)
        exact ⟨Frame.trans lower _ _ _ _ _ hf3 r1, r2⟩

theorem partialInsertionSort_spec (lower : Char → Char) (d : HostsList) (a b : Nat)
    (hab : a < b) (hb : b ≤ d.length) (hlb : LowerBound lower d a b) :
    Frame lower a b d (partialInsertionSort lower d a b).1
      ∧ ((partialInsertionSort lower d a b).2 = true →
          SortedRange lower (partialInsertionSort lower d a b).1 a b) :=
  partialInsertionSortLoop_spec lower a b 5 d (a + 1) (Nat.le_refl _) (by omega) hb
    (fun u v hu huv hv => by omega) hlb

theorem bitsLen_zero (fuel : Nat) : bitsLen fuel 0 = 0 := by
  cases fuel <;> simp [bitsLen]

theorem two_pow_bitsLen :
    ∀ (fuel n : Nat), n ≤ fuel → 1 ≤ n →
      n < 2 ^ bitsLen fuel n ∧ 2 ^ bitsLen fuel n ≤ 2 * n := by
  intro fuel
  induction fuel with
  | zero => intro n h1 h2; omega
  | succ fuel ih =>
    intro n h1 h2
    unfold bitsLen
    rw [if_neg (by omega), Nat.pow_succ]
    by_cases h : n / 2 = 0
    · rw [h, bitsLen_zero]
      simp only [Nat.pow_zero]
      omega
    · obtain ⟨q1, q2⟩ := ih (n / 2) (by omega) (by omega)
      generalize 2 ^ bitsLen fuel (n / 2) = P at q1 q2 ⊢
      omega

theorem breakPatterns_spec (lower : Char → Char) (next : Nat → Nat) (d : HostsList)
    (a b : Nat) (hab : a ≤ b) (hb : b ≤ d.length) :
    Frame lower a b d (breakPatterns next d a b) := by
  unfold breakPatterns
  simp only []
  by_cases h8 : 8 ≤ b - a
  · rw [if_pos h8]
    obtain ⟨q1, q2⟩ := two_pow_bitsLen (b - a) (b - a) (Nat.le_refl _) (by omega)
    generalize 2 ^ bitsLen (b - a) (b - a) = M at q1 q2 ⊢
    have hother : ∀ r : Nat,
        (if b - a ≤ r % M then r % M - (b - a) else r % M) < b - a := by
      intro r
      have := Nat.mod_lt r (show 0 < M by omega)
      split_ifs <;> omega
    have hidx : ∀ t, t ≤ 2 → a ≤ a + (b - a) / 4 * 2 - 1 - 1 + t
        ∧ a + (b - a) / 4 * 2 - 1 - 1 + t < b := by
      intro t ht; omega
    have step : ∀ (d' : HostsList) (t r : Nat), t ≤ 2 → d'.length = d.length →
        Frame lower a b d' (HostsList.Swap d' (a + (b - a) / 4 * 2 - 1 - 1 + t)
          (a + (if b - a ≤ r % M then r % M - (b - a) else r % M))) := by
      intro d' t r ht hl
      have := hother r
      exact Frame.swap lower _ _ d' _ _ (by rw [hl]; exact hb) (hidx t ht) (by omega)
    have f1 := step d 0 (next (b - a)) (by omega) rfl
    have f2 := step _ 1 (next (next (b - a))) (by omega) f1.1
    have f3 := step _ 2 (next (next (next (b - a)))) (by omega) (f2.1.trans f1.1)
    exact Frame.trans lower _ _ _ _ _ f1 (Frame.trans lower _ _ _ _ _ f2 f3)
  · rw [if_neg h8]; exact Frame.refl _ _ _ _

theorem reverseLoop_spec (lower : Char → Char) (a b : Nat) :
    ∀ (fuel : Nat) (d : HostsList) (i j : Nat), a ≤ i → j < b → b ≤ d.length →
      Frame lower a b d (reverseLoop fuel d i j) := by
  intro fuel
  induction fuel with
  | zero => intro d i j _ _ _; unfold reverseLoop; exact Frame.refl _ _ _ _
  | succ fuel ih =>
    intro d i j hi hj hb
    unfold reverseLoop
    by_cases hij : i < j
    · rw [if_pos hij]
      exact Frame.trans lower _ _ _ _ _
        (Frame.swap lower _ _ d _ _ hb (by omega) (by omega))
        (ih _ (i + 1) (j - 1) (by omega) (by omega) (by rw [Swap_length]; exact hb))
    · rw [if_neg hij]; exact Frame.refl _ _ _ _

theorem reverseRange_spec (lower : Char → Char) (d : HostsList) (a b : Nat)
    (hab : a < b) (hb : b ≤ d.length) : Frame lower a b d (reverseRange d a b) :=
  reverseLoop_spec lower a b (b - a) d a (b - 1) (Nat.le_refl _) (by omega) hb

theorem order2_mem (lower : Char → Char) (d : HostsList) (x y s : Nat) :
    ((order2 lower d x y s).1 = x ∧ (order2 lower d x y s).2.1 = y)
      ∨ ((order2 lower d x y s).1 = y ∧ (order2 lower d x y s).2.1 = x) := by
  unfold order2
  split_ifs
  · exact Or.inr ⟨rfl, rfl⟩
  · exact Or.inl ⟨rfl, rfl⟩

theorem median_bounds (lower : Char → Char) (d : HostsList) (x y z s lo hi : Nat)
    (hx : lo ≤ x ∧ x < hi) (hy : lo ≤ y ∧ y < hi) (hz : lo ≤ z ∧ z < hi) :
    lo ≤ (median lower d x y z s).1 ∧ (median lower d x y z s).1 < hi := by
  unfold median
  simp only []
  have h1 := order2_mem lower d x y s
  generalize order2 lower d x y s = r1 at h1 ⊢
  have h2 := order2_mem lower d r1.2.1 z r1.2.2
  generalize order2 lower d r1.2.1 z r1.2.2 = r2 at h2 ⊢
  have h3 := order2_mem lower d r1.1 r2.1 r2.2.2
  generalize order2 lower d r1.1 r2.1 r2.2.2 = r3 at h3 ⊢
  omega

theorem choosePivot_bounds (lower : Char → Char) (d : HostsList) (a b : Nat) (hab : a < b) :
    a ≤ (choosePivot lower d a b).1 ∧ (choosePivot lower d a b).1 < b := by
  unfold choosePivot
  simp only []
  have hr : ∀ r : Nat × Nat, (a ≤ r.1 ∧ r.1 < b) →
      a ≤ (if r.2 = 0 then (r.1, sortedHint.increasingHint)
          else if r.2 = 12 then (r.1, sortedHint.decreasingHint)
          else (r.1, sortedHint.unknownHint)).1
      ∧ (if r.2 = 0 then (r.1, sortedHint.increasingHint)
          else if r.2 = 12 then (r.1, sortedHint.decreasingHint)
          else (r.1, sortedHint.unknownHint)).1 < b := by
    intro r h
    split_ifs <;> exact h
  apply hr
  by_cases h8 : 8 ≤ b - a
  · rw [if_pos h8]
    by_cases h50 : 50 ≤ b - a
    · rw [if_pos h50]
      unfold medianAdjacent
      have m1 := median_bounds lower d (a + (b - a) / 4 * 1 - 1) (a + (b - a) / 4 * 1)
        (a + (b - a) / 4 * 1 + 1) 0 a b (by omega) (by omega) (by omega)
      generalize median lower d (a + (b - a) / 4 * 1 - 1) (a + (b - a) / 4 * 1)
        (a + (b - a) / 4 * 1 + 1) 0 = ri at m1 ⊢
      have m2 := median_bounds lower d (a + (b - a) / 4 * 2 - 1) (a + (b - a) / 4 * 2)
        (a + (b - a) / 4 * 2 + 1) ri.2 a b (by omega) (by omega) (by omega)
      generalize median lower d (a + (b - a) / 4 * 2 - 1) (a + (b - a) / 4 * 2)
        (a + (b - a) / 4 * 2 + 1) ri.2 = rj at m2 ⊢
      have m3 := median_bounds lower d (a + (b - a) / 4 * 3 - 1) (a + (b - a) / 4 * 3)
        (a + (b - a) / 4 * 3 + 1) rj.2 a b (by omega) (by omega) (by omega)
      generalize median lower d (a + (b - a) / 4 * 3 - 1) (a + (b - a) / 4 * 3)
        (a + (b - a) / 4 * 3 + 1) rj.2 = rk at m3 ⊢
      exact median_bounds lower d _ _ _ _ a b m1 m2 m3
    · rw [if_neg h50]
      exact median_bounds lower d _ _ _ _ a b (by omega) (by omega) (by omega)
  · rw [if_neg h8]
    show a ≤ a + (b - a) / 4 * 2 ∧ a + (b - a) / 4 * 2 < b
    omega

theorem sortedRange_of_pivot (lower : Char → Char) (d : HostsList) (a b mid : Nat)
    (hA : SortedRange lower d a mid) (hB : SortedRange lower d (mid + 1) b)
    (hC : ∀ u, a ≤ u → u < mid → HostsList.Less lower d u mid = true)
    (hD : ∀ v, mid < v → v < b → HostsList.Less lower d v mid = false) :
    SortedRange lower d a b := by
  intro u v hu huv hv
  by_cases h1 : v < mid
  · exact hA u v hu huv h1
  · by_cases h2 : v = mid
    · subst h2; exact Less_asymm lower d _ _ (hC u hu huv)
    · by_cases h3 : u < mid
      · exact Less_of_lt_of_ge lower d u mid v (hC u hu h3) (hD v (by omega) hv)
      · by_cases h4 : u = mid
        · subst h4; exact hD v (by omega) hv
        · exact hB u v (by omega) huv hv

/-- When `x` is less than `v` and not less than `u`, `v` is not less than `u`. -/
theorem Less_of_gt_of_le (lower : Char → Char) (d : HostsList) (x u v : Nat)
    (hxv : HostsList.Less lower d x v = true) (hxu : HostsList.Less lower d x u = false) :
    HostsList.Less lower d v u = false := by
  cases h : HostsList.Less lower d v u with
  | false => rfl
  | true => have := Less_trans lower d x v u hxv h; rw [hxu] at this; exact this.symm

theorem sortedRange_of_equal (lower : Char → Char) (d : HostsList) (a b mid : Nat)
    (h0 : 0 < a) (ha : a - 1 < d.length) (hlen : a < d.length)
    (hlb : LowerBound lower d a b)
    (hprev : HostsList.Less lower d (a - 1) a = false)
    (hB : SortedRange lower d mid b)
    (hC : ∀ k, a ≤ k → k < mid → HostsList.Less lower d a k = false)
    (hD : ∀ k, mid ≤ k → k < b → HostsList.Less lower d a k = true) :
    SortedRange lower d a b := by
  intro u v hu huv hv
  by_cases h1 : v < mid
  · exact Less_negTrans lower d v a u hlen
      (Less_negTrans lower d v (a - 1) a ha (hlb h0 v (by omega) hv) hprev)
      (hC u hu (by omega))
  · by_cases h2 : u < mid
    · exact Less_of_gt_of_le lower d a u v (hD v (by omega) hv) (hC u hu h2)
    · exact hB u v (by omega) huv hv

theorem pdqsort_spec (lower : Char → Char) (next : Nat → Nat) :
    ∀ (fuel : Nat) (d : HostsList) (a b limit : Nat) (wasBalanced wasPartitioned : Bool),
      a ≤ b → b ≤ d.length → b - a < fuel → LowerBound lower d a b →
      Frame lower a b d (pdqsort lower next fuel d a b limit wasBalanced wasPartitioned)
        ∧ SortedRange lower
          (pdqsort lower next fuel d a b limit wasBalanced wasPartitioned) a b := by
  intro fuel
  induction fuel with
  | zero => intro d a b limit wb wp _ _ h; omega
  | succ fuel ih =>
    intro d a b limit wb wp hab hb hfuel hlb
    unfold pdqsort
    by_cases h12 : b - a ≤ 12
    · rw [if_pos h12]; exact insertionSort_spec lower d a b hab hb
    · rw [if_neg h12]
      by_cases hlim : limit = 0
      · rw [if_pos hlim]; exact heapSort_spec lower d a b hab hb
      · rw [if_neg hlim]
        simp only []
        -- breakPatterns
        have hf1 : Frame lower a b d (if wb = true then d else breakPatterns next d a b) := by
          split_ifs
          · exact Frame.refl _ _ _ _
          · exact breakPatterns_spec lower next d a b hab hb
        generalize (if wb = true then d else breakPatterns next d a b) = d1 at hf1 ⊢
        generalize (if wb = true then limit else limit - 1) = limit1
        have hb1 : b ≤ d1.length := by rw [hf1.1]; exact hb
        -- choosePivot
        have hp := choosePivot_bounds lower d1 a b (by omega)
        generalize choosePivot lower d1 a b = p at hp ⊢
        have hf2 : Frame lower a b d1
            (if p.2 = sortedHint.decreasingHint then reverseRange d1 a b else d1) := by
          split_ifs
          · exact reverseRange_spec lower d1 a b (by omega) hb1
          · exact Frame.refl _ _ _ _
        generalize (if p.2 = sortedHint.decreasingHint then reverseRange d1 a b else d1) = d2
          at hf2 ⊢
        have hpiv : a ≤ (if p.2 = sortedHint.decreasingHint then b - 1 - (p.1 - a) else p.1)
            ∧ (if p.2 = sortedHint.decreasingHint then b - 1 - (p.1 - a) else p.1) < b := by
          split_ifs <;> omega
        generalize (if p.2 = sortedHint.decreasingHint then b - 1 - (p.1 - a) else p.1) = pivot
          at hpiv ⊢
        generalize (if p.2 = sortedHint.decreasingHint then sortedHint.increasingHint
          else p.2) = hint
        have hfd2 : Frame lower a b d d2 := Frame.trans lower _ _ _ _ _ hf1 hf2
        have hb2 : b ≤ d2.length := by rw [hfd2.1]; exact hb
        have hlb2 : LowerBound lower d2 a b := Frame.lowerBound lower _ _ _ _ hfd2 hlb
        -- partialInsertionSort
        have hs : Frame lower a b d2
              (if wb = true ∧ wp = true ∧ hint = sortedHint.increasingHint then
                partialInsertionSort lower d2 a b else (d2, false)).1
            ∧ ((if wb = true ∧ wp = true ∧ hint = sortedHint.increasingHint then
                partialInsertionSort lower d2 a b else (d2, false)).2 = true →
              SortedRange lower
                (if wb = true ∧ wp = true ∧ hint = sortedHint.increasingHint then
                  partialInsertionSort lower d2 a b else (d2, false)).1 a b) := by
          split_ifs
          · exact partialInsertionSort_spec lower d2 a b (by omega) hb2 hlb2
          · exact ⟨Frame.refl _ _ _ _, fun h => by simp at h⟩
        generalize (if wb = true ∧ wp = true ∧ hint = sortedHint.increasingHint then
          partialInsertionSort lower d2 a b else (d2, false)) = s at hs ⊢
        obtain ⟨d3, done⟩ := s
        simp only at hs ⊢
        obtain ⟨hf3, hs3⟩ := hs
        have hfd3 : Frame lower a b d d3 := Frame.trans lower _ _ _ _ _ hfd2 hf3
        have hb3 : b ≤ d3.length := by rw [hfd3.1]; exact hb
        have hlb3 : LowerBound lower d3 a b := Frame.lowerBound lower _ _ _ _ hfd3 hlb
        by_cases hdone : done = true
        · rw [if_pos hdone]; exact ⟨hfd3, hs3 hdone⟩
        · rw [if_neg hdone]
          by_cases heq : 0 < a ∧ HostsList.Less lower d3 (a - 1) pivot = false
          · rw [if_pos heq]
            obtain ⟨e1, e2, e3, e4, e5, e6⟩ :=
              partitionEqual_spec lower d3 a b pivot (by omega) hb3 hpiv
            generalize partitionEqual lower d3 a b pivot = e at e1 e2 e3 e4 e5 e6 ⊢
            obtain ⟨d4, mid⟩ := e
            simp only at e1 e2 e3 e4 e5 e6 ⊢
            have hb4 : b ≤ d4.length := by rw [e1.1]; exact hb3
            have hlb4 : LowerBound lower d4 a b := Frame.lowerBound lower _ _ _ _ e1 hlb3
            have hprev : HostsList.Less lower d4 (a - 1) a = false := by
              rw [e6 (a - 1) (by omega)]; exact heq.2
            obtain ⟨r1, r2⟩ := ih d4 mid b limit1 wb wp e3 hb4 (by omega) (by
              intro _ m hm1 hm2
              exact Less_of_gt_of_le lower d4 a (mid - 1) m (e5 m hm1 hm2)
                (e4 (mid - 1) (by omega) (by omega)))
            generalize pdqsort lower next fuel d4 mid b limit1 wb wp = out at r1 r2 ⊢
            have hfo : Frame lower a b d4 out :=
              Frame.mono lower _ _ _ _ _ _ r1 (by omega) (Nat.le_refl _)
            refine ⟨Frame.trans lower _ _ _ _ _ hfd3 (Frame.trans lower _ _ _ _ _ e1 hfo), ?_⟩
            have hlo : out.length = d4.length := r1.1
            apply sortedRange_of_equal lower out a b mid heq.1 (by omega) (by omega)
              (Frame.lowerBound lower _ _ _ _ hfo hlb4)
            · rw [Frame.out_out lower _ _ _ _ r1 (a - 1) a (by omega) (by omega)]
              exact hprev
            · exact r2
            · intro k hk1 hk2
              rw [Frame.out_out lower _ _ _ _ r1 a k (by omega) (by omega)]
              exact e4 k hk1 hk2
            · exact Frame.right_out lower _ _ _ _ r1 a (by omega) true mid b
                (Nat.le_refl _) (Nat.le_refl _) e5
          · rw [if_neg heq]
            obtain ⟨q1, q2, q3, q4, q5⟩ := partition_spec lower d3 a b pivot (by omega) hb3 hpiv
            generalize partition lower d3 a b pivot = r at q1 q2 q3 q4 q5 ⊢
            obtain ⟨d4, mid, already⟩ := r
            simp only at q1 q2 q3 q4 q5 ⊢
            have hb4 : b ≤ d4.length := by rw [q1.1]; exact hb3
            have hlb4 : LowerBound lower d4 a b := Frame.lowerBound lower _ _ _ _ q1 hlb3
            have hfd4 : Frame lower a b d d4 := Frame.trans lower _ _ _ _ _ hfd3 q1
            by_cases hside : mid - a < b - mid
            · rw [if_pos hside]
              obtain ⟨r1, r2⟩ := ih d4 a mid limit1 true true q2 (by omega) (by omega)
                (fun h0 m hm1 hm2 => hlb4 h0 m hm1 (by omega))
              generalize pdqsort lower next fuel d4 a mid limit1 true true = inner at r1 r2 ⊢
              have hD1 : ∀ m, mid + 1 ≤ m → m < b →
                  HostsList.Less lower inner m mid = false := by
                intro m hm1 hm2
                rw [Frame.out_out lower _ _ _ _ r1 m mid (by omega) (by omega)]
                exact q5 m (by omega) hm2
              obtain ⟨t1, t2⟩ := ih inner (mid + 1) b limit1
                (decide ((b - a) / 8 ≤ mid - a)) already (by omega)
                (by rw [r1.1]; exact hb4) (by omega)
                (fun _ m hm1 hm2 => by
                  have := hD1 m hm1 hm2
                  simpa using this)
              generalize pdqsort lower next fuel inner (mid + 1) b limit1
                (decide ((b - a) / 8 ≤ mid - a)) already = out at t1 t2 ⊢
              refine ⟨Frame.trans lower _ _ _ _ _ hfd4
                (Frame.trans lower _ _ _ _ _
                  (Frame.mono lower _ _ _ _ _ _ r1 (Nat.le_refl _) (by omega))
                  (Frame.mono lower _ _ _ _ _ _ t1 (by omega) (Nat.le_refl _))), ?_⟩
              apply sortedRange_of_pivot lower out a b mid
              · exact Frame.sortedRange_out lower _ _ _ _ t1 a mid (Or.inl (by omega)) r2
              · exact t2
              · intro u hu1 hu2
                rw [Frame.out_out lower _ _ _ _ t1 u mid (by omega) (by omega)]
                exact Frame.left_out lower _ _ _ _ r1 mid (by omega) true a mid
                  (Nat.le_refl _) (Nat.le_refl _) q4 u hu1 hu2
              · intro v hv1 hv2
                exact Frame.left_out lower _ _ _ _ t1 mid (by omega) false (mid + 1) b
                  (Nat.le_refl _) (Nat.le_refl _) hD1 v (by omega) hv2
            · rw [if_neg hside]
              obtain ⟨r1, r2⟩ := ih d4 (mid + 1) b limit1 true true (by omega) hb4 (by omega)
                (fun _ m hm1 hm2 => by
                  have := q5 m (by omega) hm2
                  simpa using this)
              generalize pdqsort lower next fuel d4 (mid + 1) b limit1 true true = inner
                at r1 r2 ⊢
              have hC1 : ∀ u, a ≤ u → u < mid → HostsList.Less lower inner u mid = true := by
                intro u hu1 hu2
                rw [Frame.out_out lower _ _ _ _ r1 u mid (by omega) (by omega)]
                exact q4 u hu1 hu2
              obtain ⟨t1, t2⟩ := ih inner a mid limit1
                (decide ((b - a) / 8 ≤ b - mid)) already q2
                (by rw [r1.1]; omega) (by omega)
                (fun h0 m hm1 hm2 => by
                  rw [Frame.out_out lower _ _ _ _ r1 m (a - 1) (by omega) (by omega)]
                  exact hlb4 h0 m hm1 (by omega))
              generalize pdqsort lower next fuel inner a mid limit1
                (decide ((b - a) / 8 ≤ b - mid)) already = out at t1 t2 ⊢
              refine ⟨Frame.trans lower _ _ _ _ _ hfd4
                (Frame.trans lower _ _ _ _ _
                  (Frame.mono lower _ _ _ _ _ _ r1 (by omega) (Nat.le_refl _))
                  (Frame.mono lower _ _ _ _ _ _ t1 (Nat.le_refl _) (by omega))), ?_⟩
              apply sortedRange_of_pivot lower out a b mid
              · exact t2
              · exact Frame.sortedRange_out lower _ _ _ _ t1 (mid + 1) b (Or.inr (by omega)) r2
              · intro u hu1 hu2
                exact Frame.left_out lower _ _ _ _ t1 mid (by omega) true a mid
                  (Nat.le_refl _) (Nat.le_refl _) hC1 u hu1 hu2
              · intro v hv1 hv2
                rw [Frame.out_out lower _ _ _ _ t1 v mid (by omega) (by omega)]
                exact Frame.left_out lower _ _ _ _ r1 mid (by omega) false (mid + 1) b
                  (Nat.le_refl _) (Nat.le_refl _)
                  (fun m hm1 hm2 => q5 m (by omega) hm2) v (by omega) hv2

theorem sortSort_spec (lower : Char → Char) (next : Nat → Nat) (data : HostsList) :
    Frame lower 0 data.length data (sortSort lower next data)
      ∧ SortedRange lower (sortSort lower next data) 0 data.length := by
  unfold sortSort HostsList.Len
  by_cases h : data.length ≤ 1
  · rw [if_pos h]
    refine ⟨Frame.refl _ _ _ _, ?_⟩
    intro i j _ hij hj
    omega
  · rw [if_neg h]
    exact pdqsort_spec lower next (data.length + 1) data 0 data.length _ true true
      (Nat.zero_le _) (Nat.le_refl _) (by omega) (fun h0 => absurd h0 (by omega))

theorem sortSort_perm (lower : Char → Char) (next : Nat → Nat) (data : HostsList) :
    (sortSort lower next data).Perm data :=
  Frame.perm lower _ _ _ _ (sortSort_spec lower next data).1

theorem sortSort_sorted (lower : Char → Char) (next : Nat → Nat) (data : HostsList) :
    (sortSort lower next data).Pairwise (fun a b => ruleLess lower b a = false) := by
  obtain ⟨hf, hs⟩ := sortSort_spec lower next data
  have hlen : (sortSort lower next data).length = data.length := hf.1
  rw [List.pairwise_iff_getElem]
  intro i j hi hj hij
  rw [← Less_eq lower _ j i hj hi]
  exact hs i j (Nat.zero_le _) hij (by omega)

/-! ## Rendering: lemmas -/

theorem plain_of_printable (s : Str) (hs : printable s) : plain s := by
  intro c hc
  have h := hs c hc
  rintro (rfl | rfl | rfl | rfl) <;> revert h <;> decide

theorem writeByte_plain (b : Writer) (ch : Char)
    (h : ¬ (ch = '\t' ∨ ch = '\x0b' ∨ ch = '\n' ∨ ch = '\x0c')) :
    b.writeByte ch = { b with cell := b.cell ++ [ch] } := by
  unfold Writer.writeByte
  rw [if_neg h]

theorem Write_plain (s : Str) (hs : plain s) (b : Writer) :
    b.Write s = { b with cell := b.cell ++ s } := by
  unfold Writer.Write
  induction s generalizing b with
  | nil => simp
  | cons c s ih =>
    rw [List.foldl_cons, writeByte_plain b c (hs c (List.mem_cons_self _ _)),
      ih (fun d hd => hs d (List.mem_cons_of_mem _ hd))]
    simp

theorem Write_append (b : Writer) (s t : Str) : b.Write (s ++ t) = (b.Write s).Write t := by
  unfold Writer.Write
  rw [List.foldl_append]

theorem Write_cons (b : Writer) (c : Char) (t : Str) :
    b.Write (c :: t) = (b.writeByte c).Write t := rfl

theorem Write_two_cells (a c : Str) (ha : plain a) (hc : plain c)
    (out : Str) (lines : List (List Cell)) :
    ({ output := out, cell := [], lines := lines, last := [] } : Writer).Write
        (a ++ '\t' :: (c ++ ['\n']))
      = { output := out, cell := [], lines := lines ++ [[⟨a, true⟩, ⟨c, false⟩]], last := [] } := by
  rw [Write_append, Write_plain a ha, Write_cons, Write_append, Write_cons]
  simp only [Writer.writeByte, Writer.terminateCell]
  rw [Write_plain c hc]
  simp [Writer.writeByte, Writer.terminateCell, Writer.Write]

theorem hostEntries_foldl (k8sHostname : Str) (entries : HostsList) (start : Str) :
    entries.foldl (fun hostEntries item => hostEntries ++ (item.String k8sHostname ++ ['\n']))
        start
      = start ++ (entries.map (fun r => r.String k8sHostname ++ ['\n'])).flatten := by
  induction entries generalizing start with
  | nil => simp
  | cons r rs ih => rw [List.foldl_cons, ih]; simp

theorem hostEntries_eq (k8sHostname : Str) (entries : HostsList) :
    hostEntries k8sHostname entries
      = (entries.map (fun r => r.String k8sHostname ++ ['\n'])).flatten := by
  unfold hostEntries
  rw [hostEntries_foldl]
  simp

theorem plain_append (s t : Str) (hs : plain s) (ht : plain t) :
    plain (s ++ t) := by
  intro c hc
  rcases List.mem_append.mp hc with h | h
  · exact hs c h
  · exact ht c h

theorem Write_hostEntries (k8sHostname : Str) (hk : plain k8sHostname)
    (entries : HostsList)
    (he : ∀ r ∈ entries, plain r.Domain ∧ plain r.Service)
    (out : Str) (lines : List (List Cell)) :
    ({ output := out, cell := [], lines := lines, last := [] } : Writer).Write
        (hostEntries k8sHostname entries)
      = { output := out, cell := [],
          lines := lines ++ entries.map (ruleCells k8sHostname), last := [] } := by
  rw [hostEntries_eq]
  induction entries generalizing lines with
  | nil => simp [Writer.Write]
  | cons r rs ih =>
    have hr := he r (List.mem_cons_self _ _)
    have hline : r.String k8sHostname ++ ['\n']
        = (k8sHostname ++ [' '] ++ r.Domain) ++ '\t' :: ((['#', ' '] ++ r.Service) ++ ['\n']) := by
      simp [Rule.String]
    have hsp : plain [' '] := by intro c hc; simp at hc; subst hc; decide
    have hhash : plain ['#', ' '] := by
      intro c hc; simp at hc; rcases hc with rfl | rfl <;> decide
    rw [List.map_cons, List.flatten_cons, Write_append, hline,
      Write_two_cells _ _ (plain_append _ _ (plain_append _ _ hk hsp) hr.1)
        (plain_append _ _ hhash hr.2),
      ih (fun r' hr' => he r' (List.mem_cons_of_mem _ hr'))]
    simp [ruleCells]


theorem takeWhile_append_stop {α : Type} (p : α → Bool) (l : List α) (y : α) (rest : List α)
    (hl : ∀ x ∈ l, p x = true) (hy : p y = false) :
    (l ++ y :: rest).takeWhile p = l ∧ (l ++ y :: rest).dropWhile p = y :: rest := by
  induction l with
  | nil => simp [List.takeWhile, List.dropWhile, hy]
  | cons a l ih =>
    have ha := hl a (List.mem_cons_self _ _)
    have := ih (fun x hx => hl x (List.mem_cons_of_mem _ hx))
    simp [List.takeWhile, List.dropWhile, ha, this.1, this.2]

theorem dropWhile_all {α : Type} (p : α → Bool) (l : List α) (hl : ∀ x ∈ l, p x = true) :
    l.dropWhile p = [] := by
  induction l with
  | nil => rfl
  | cons a l ih =>
    simp [List.dropWhile, hl a (List.mem_cons_self _ _),
      ih (fun x hx => hl x (List.mem_cons_of_mem _ hx))]

theorem writeLines_inner (total : Nat) (widths : List Nat) (lines : List (List Cell)) :
    ∀ line0 : Nat, line0 + lines.length < total →
      writeLines total widths line0 lines
        = (lines.map (fun row => writeCells widths row ++ ['\n'])).flatten := by
  induction lines with
  | nil => intro line0 _; rfl
  | cons row rest ih =>
    intro line0 h
    simp only [List.length_cons] at h
    have hne : ¬ (line0 + 1 = total) := by omega
    unfold writeLines
    rw [if_neg hne, ih (line0 + 1) (by omega)]
    simp

theorem format_two_columns (fuel : Nat) (row : List Cell) (rows : List (List Cell))
    (h2 : ∀ r ∈ row :: rows, r.length = 2) :
    format ((row :: rows).length + 1) (fuel + 2) [] 0 (row :: rows ++ [[]])
      = ((row :: rows).map
          (fun r => writeCells [blockWidth 0 (row :: rows)] r ++ ['\n'])).flatten := by
  have hskip : (row :: rows ++ [[]]).dropWhile (fun r : List Cell => decide (r.length ≤ 0 + 1))
      = row :: rows ++ [[]] := by
    have : row.length = 2 := h2 row (List.mem_cons_self _ _)
    simp [List.dropWhile, this]
  have hskipT : (row :: rows ++ [[]]).takeWhile
      (fun r : List Cell => decide (r.length ≤ 0 + 1)) = [] := by
    have : row.length = 2 := h2 row (List.mem_cons_self _ _)
    simp [List.takeWhile, this]
  have hblock := takeWhile_append_stop (fun r : List Cell => decide (0 + 1 < r.length))
    (row :: rows) [] [] (fun r hr => by simp [h2 r hr]) (by simp)
  have hinner : format ((row :: rows).length + 1) (fuel + 1) ([] ++ [blockWidth 0 (row :: rows)])
      (0 + 0) (row :: rows)
      = ((row :: rows).map
          (fun r => writeCells [blockWidth 0 (row :: rows)] r ++ ['\n'])).flatten := by
    unfold format
    have hd : (row :: rows).dropWhile
        (fun r : List Cell => decide (r.length ≤ ([] ++ [blockWidth 0 (row :: rows)]).length + 1)) = [] :=
      dropWhile_all _ _ (fun r hr => by simp [h2 r hr])
    simp only [hd]
    exact writeLines_inner _ _ _ _ (by simp)
  have hbehind : format ((row :: rows).length + 1) (fuel + 1) [] (0 + 0 + (row :: rows).length)
      [[]] = [] := by
    unfold format
    simp [List.dropWhile, writeLines, writeCells]
  show format ((row :: rows).length + 1) (fuel + 1 + 1) [] 0 (row :: rows ++ [[]]) = _
  unfold format
  simp only [List.length_nil]
  rw [hskip]
  have hcons : row :: rows ++ [[]] = row :: (rows ++ [[]]) := rfl
  rw [hcons] at hblock ⊢
  simp only []
  rw [← hcons] at hblock ⊢
  rw [hskipT, hblock.1, hblock.2]
  simp only [List.length_nil] at hinner hbehind ⊢
  rw [hinner, hbehind]
  simp [writeLines]


theorem width_step_last (n w : Nat) :
    (if n + 2 > w then n + 2 else w) = max w (max n 0 + 2) := by
  simp only [Nat.max_def]
  split_ifs <;> omega

theorem width_step (n m w : Nat) :
    max (if n + 2 > w then n + 2 else w) (m + 2) = max w (max n m + 2) := by
  simp only [Nat.max_def]
  split_ifs <;> omega

theorem blockWidth_foldl (k8sHostname : Str) (entries : HostsList) (w : Nat) :
    (entries.map (ruleCells k8sHostname)).foldl
        (fun width row =>
          match row[0]? with
          | some c => if c.width + padding > width then c.width + padding else width
          | none => width) w
      = if entries = [] then w else max w (maxCellWidth k8sHostname entries + 2) := by
  induction entries generalizing w with
  | nil => simp
  | cons r rs ih =>
    rw [List.map_cons, List.foldl_cons, ih]
    by_cases hrs : rs = []
    · subst hrs
      simp only [if_true, if_neg (List.cons_ne_nil _ _)]
      exact width_step_last _ w
    · simp only [if_neg hrs, if_neg (List.cons_ne_nil _ _)]
      exact width_step _ _ w

theorem blockWidth_ruleCells (k8sHostname : Str) (r : Rule) (rs : HostsList) :
    blockWidth 0 ((r :: rs).map (ruleCells k8sHostname))
      = maxCellWidth k8sHostname (r :: rs) + 2 := by
  unfold blockWidth
  rw [blockWidth_foldl, if_neg (List.cons_ne_nil _ _)]
  simp [minwidth]

theorem maxCellWidth_perm (k8sHostname : Str) (l₁ l₂ : HostsList) (h : l₁.Perm l₂) :
    maxCellWidth k8sHostname l₁ = maxCellWidth k8sHostname l₂ := by
  unfold maxCellWidth
  induction h with
  | nil => rfl
  | cons x _ ih => simp only [List.map_cons, List.foldr_cons, ih]
  | swap x y l =>
    simp only [List.map_cons, List.foldr_cons]
    simp only [Nat.max_def]
    split_ifs <;> omega
  | trans _ _ ih₁ ih₂ => exact ih₁.trans ih₂

theorem writeCells_ruleCells (k8sHostname : Str) (r : Rule) (w : Nat) :
    writeCells [w] (ruleCells k8sHostname r) ++ ['\n']
      = padTo w (k8sHostname ++ [' '] ++ r.Domain) ++ ['#', ' '] ++ r.Service ++ ['\n'] := by
  simp [writeCells, ruleCells, padTo, Cell.width, padchar]

theorem sortAndWrite_eq (lower : Char → Char) (next : Nat → Nat) (k8sHostname : Str) (entries : HostsList)
    (hk : plain k8sHostname)
    (he : ∀ r ∈ entries, plain r.Domain ∧ plain r.Service) :
    sortAndWrite lower next k8sHostname entries
      = ((sortSort lower next entries).map (fun r =>
          padTo (maxCellWidth k8sHostname entries + 2) (k8sHostname ++ [' '] ++ r.Domain)
            ++ ['#', ' '] ++ r.Service ++ ['\n'])).flatten := by
  have hperm := sortSort_perm lower next entries
  have hs : ∀ r ∈ sortSort lower next entries, plain r.Domain ∧ plain r.Service :=
    fun r hr => he r (hperm.mem_iff.mp hr)
  unfold sortAndWrite NewWriter
  rw [Write_hostEntries k8sHostname hk _ hs, ← maxCellWidth_perm k8sHostname _ _ hperm]
  generalize sortSort lower next entries = sorted
  cases sorted with
  | nil => simp [Writer.Flush, Writer.flushNoDefers, format, writeLines, writeCells]
  | cons r rs =>
    simp only [Writer.Flush, Writer.flushNoDefers, List.nil_append, ne_eq, not_true_eq_false,
      if_false]
    obtain ⟨k, hk2⟩ : ∃ k, (List.map (ruleCells k8sHostname) (r :: rs) ++ [[]]).length
        + (List.map List.length (List.map (ruleCells k8sHostname) (r :: rs) ++ [[]])).sum + 1
        = k + 2 :=
      ⟨rs.length
          + (List.map List.length (List.map (ruleCells k8sHostname) (r :: rs) ++ [[]])).sum + 1,
        by simp only [List.length_append, List.length_map, List.length_cons,
          List.length_singleton, List.length_nil]; omega⟩
    have hlen : (List.map (ruleCells k8sHostname) (r :: rs) ++ [[]]).length
        = (ruleCells k8sHostname r :: rs.map (ruleCells k8sHostname)).length + 1 := by simp
    rw [hk2, hlen]
    have h2 : ∀ row ∈ ruleCells k8sHostname r :: rs.map (ruleCells k8sHostname),
        row.length = 2 := by
      intro row hrow
      rw [← List.map_cons] at hrow
      obtain ⟨x, _, rfl⟩ := List.mem_map.mp hrow
      rfl
    have hf := format_two_columns k _ _ h2
    rw [List.map_cons, hf, ← List.map_cons (f := ruleCells k8sHostname), blockWidth_ruleCells]
    simp only [List.map_map]
    congr 1
    apply List.map_congr_left
    intro x _
    exact writeCells_ruleCells k8sHostname x _


/-! ## File Sync: lemmas on the regular expression -/

theorem lastIndex_none (pat : Str) (hpat : pat ≠ []) (s : Str) (h : lastIndex pat s = none) :
    ∀ k, ¬ occursAt pat s k := by
  induction s with
  | nil =>
    intro k hk
    simp only [occursAt, List.drop_nil, List.prefix_nil] at hk
    exact hpat hk
  | cons c s ih =>
    unfold lastIndex at h
    cases hl : lastIndex pat s with
    | some j => rw [hl] at h; simp at h
    | none =>
      rw [hl] at h
      simp only at h
      intro k hk
      cases k with
      | zero =>
        have : pat.isPrefixOf (c :: s) = true := List.isPrefixOf_iff_prefix.mpr (by simpa [occursAt] using hk)
        rw [this] at h
        simp at h
      | succ k => exact ih hl k (by simpa [occursAt] using hk)

theorem lastIndex_some (pat : Str) (hpat : pat ≠ []) (s : Str) (j : Nat)
    (h : lastIndex pat s = some j) :
    occursAt pat s j ∧ ∀ k, j < k → ¬ occursAt pat s k := by
  induction s generalizing j with
  | nil =>
    unfold lastIndex at h
    have : pat.isPrefixOf ([] : Str) = false := by
      cases pat with
      | nil => exact absurd rfl hpat
      | cons a p => rfl
    rw [this] at h
    simp at h
  | cons c s ih =>
    unfold lastIndex at h
    cases hl : lastIndex pat s with
    | some j' =>
      rw [hl] at h
      simp only [Option.some.injEq] at h
      subst h
      obtain ⟨h1, h2⟩ := ih j' hl
      refine ⟨by simpa [occursAt] using h1, ?_⟩
      intro k hk hocc
      cases k with
      | zero => omega
      | succ k => exact h2 k (by omega) (by simpa [occursAt] using hocc)
    | none =>
      rw [hl] at h
      simp only at h
      split_ifs at h with hp
      simp only [Option.some.injEq] at h
      subst h
      refine ⟨by simpa [occursAt] using List.isPrefixOf_iff_prefix.mp hp, ?_⟩
      intro k hk hocc
      cases k with
      | zero => omega
      | succ k => exact lastIndex_none pat hpat s hl k (by simpa [occursAt] using hocc)

theorem lastIndex_eq_some (pat : Str) (hpat : pat ≠ []) (s : Str) (j : Nat)
    (hocc : occursAt pat s j) (hlast : ∀ k, j < k → ¬ occursAt pat s k) :
    lastIndex pat s = some j := by
  cases hl : lastIndex pat s with
  | none => exact absurd hocc (lastIndex_none pat hpat s hl j)
  | some j' =>
    obtain ⟨h1, h2⟩ := lastIndex_some pat hpat s j' hl
    rcases Nat.lt_trichotomy j j' with hlt | heq | hgt
    · exact absurd h1 (hlast j' hlt)
    · rw [heq]
    · exact absurd hocc (h2 j hgt)

theorem lastIndex_eq_none (pat : Str) (s : Str) (h : ∀ k, ¬ occursAt pat s k) :
    lastIndex pat s = none := by
  induction s with
  | nil =>
    unfold lastIndex
    have : ¬ pat.isPrefixOf ([] : Str) = true := fun hp =>
      h 0 (by simpa [occursAt] using List.isPrefixOf_iff_prefix.mp hp)
    simp [this]
  | cons c s ih =>
    unfold lastIndex
    rw [ih (fun k hk => h (k + 1) (by simpa [occursAt] using hk))]
    have : ¬ pat.isPrefixOf (c :: s) = true := fun hp =>
      h 0 (by simpa [occursAt] using List.isPrefixOf_iff_prefix.mp hp)
    simp [this]

theorem sectionStart_ne_nil : sectionStart ≠ [] := by decide

theorem sectionEnd_ne_nil : sectionEnd ≠ [] := by decide

theorem sectionEnd_length_pos : 0 < sectionEnd.length := by decide

theorem matchHere_append (rest : Str) :
    matchHere (sectionStart ++ rest)
      = match lastIndex sectionEnd rest with
        | some j => some (rest.take j, rest.drop (j + sectionEnd.length))
        | none => none := by
  unfold matchHere
  have hp : sectionStart.isPrefixOf (sectionStart ++ rest) = true :=
    List.isPrefixOf_iff_prefix.mpr (List.prefix_append _ _)
  rw [if_pos hp, List.drop_left]

theorem matchHere_of_no_start (s : Str) (h : ¬ sectionStart <+: s) : matchHere s = none := by
  unfold matchHere
  have hp : ¬ sectionStart.isPrefixOf s = true := fun hp => h (List.isPrefixOf_iff_prefix.mp hp)
  rw [if_neg hp]

theorem occursAt_middle (pat pre post : Str) : occursAt pat (pre ++ pat ++ post) pre.length := by
  unfold occursAt
  rw [List.append_assoc, List.drop_left]
  exact List.prefix_append _ _

theorem matchHere_eq_some (group1 post : Str)
    (hlast : ∀ k, group1.length < k → ¬ occursAt sectionEnd (group1 ++ sectionEnd ++ post) k) :
    matchHere (sectionStart ++ (group1 ++ sectionEnd ++ post)) = some (group1, post) := by
  rw [matchHere_append,
    lastIndex_eq_some sectionEnd sectionEnd_ne_nil _ group1.length
      (occursAt_middle sectionEnd group1 post) hlast]
  simp only [Option.some.injEq, Prod.mk.injEq]
  constructor
  · rw [List.append_assoc, List.take_left]
  · rw [List.append_assoc, List.drop_append, List.drop_left]

theorem matchHere_some (s group1 post : Str) (h : matchHere s = some (group1, post)) :
    s = sectionStart ++ (group1 ++ sectionEnd ++ post)
      ∧ ∀ k, group1.length < k → ¬ occursAt sectionEnd (group1 ++ sectionEnd ++ post) k := by
  by_cases hp : sectionStart <+: s
  · obtain ⟨rest, rfl⟩ := hp
    rw [matchHere_append] at h
    cases hl : lastIndex sectionEnd rest with
    | none => rw [hl] at h; simp at h
    | some j =>
      rw [hl] at h
      simp only [Option.some.injEq, Prod.mk.injEq] at h
      obtain ⟨h1, h2⟩ := lastIndex_some sectionEnd sectionEnd_ne_nil rest j hl
      obtain ⟨tail, htail⟩ := h1
      have hrest : rest = group1 ++ sectionEnd ++ post := by
        have hsplit := (List.take_append_drop j rest).symm
        rw [← htail, h.1] at hsplit
        have hpost : tail = post := by
          rw [← h.2, ← List.drop_drop, ← htail, List.drop_left]
        rw [hsplit, hpost, List.append_assoc]
      have hj : j = group1.length := by
        have hjle : j ≤ rest.length := by
          by_contra hnot
          have : List.drop j rest = [] := List.drop_eq_nil_of_le (by omega)
          rw [this] at htail
          have := congrArg List.length htail
          simp only [List.length_append, List.length_nil] at this
          have := sectionEnd_length_pos
          omega
        rw [← h.1, List.length_take, Nat.min_eq_left hjle]
      refine ⟨by rw [hrest], ?_⟩
      rw [← hrest, ← hj]
      exact h2
  · rw [matchHere_of_no_start s hp] at h
    simp at h

theorem matchHere_none (s : Str) (h : matchHere s = none) :
    ¬ (sectionStart <+: s ∧ ∃ k, occursAt sectionEnd (s.drop sectionStart.length) k) := by
  rintro ⟨⟨rest, rfl⟩, k, hk⟩
  rw [matchHere_append] at h
  rw [List.drop_left] at hk
  cases hl : lastIndex sectionEnd rest with
  | none => exact lastIndex_none sectionEnd sectionEnd_ne_nil rest hl k hk
  | some j => rw [hl] at h; simp at h

theorem matchHere_eq_none (s : Str)
    (h : ¬ (sectionStart <+: s ∧ ∃ k, occursAt sectionEnd (s.drop sectionStart.length) k)) :
    matchHere s = none := by
  cases hm : matchHere s with
  | none => rfl
  | some m =>
    obtain ⟨group1, post⟩ := m
    obtain ⟨hs, _⟩ := matchHere_some s group1 post hm
    exfalso
    apply h
    refine ⟨⟨_, hs.symm⟩, group1.length, ?_⟩
    rw [hs, List.drop_left]
    exact occursAt_middle sectionEnd group1 post


theorem matchHere_nil : matchHere [] = none :=
  matchHere_of_no_start [] (fun h => sectionStart_ne_nil (List.prefix_nil.mp h))

theorem findMatch_none (s : Str) (h : findMatch s = none) : ∀ p, matchHere (s.drop p) = none := by
  induction s with
  | nil => intro p; rw [List.drop_nil]; exact matchHere_nil
  | cons c s ih =>
    unfold findMatch at h
    cases hm : matchHere (c :: s) with
    | some m => rw [hm] at h; simp at h
    | none =>
      rw [hm] at h
      simp only [Option.map_eq_none'] at h
      intro p
      cases p with
      | zero => exact hm
      | succ p => exact ih h p

theorem findMatch_eq_none (s : Str) (h : ∀ p, matchHere (s.drop p) = none) :
    findMatch s = none := by
  induction s with
  | nil => rfl
  | cons c s ih =>
    unfold findMatch
    have h0 : matchHere (c :: s) = none := h 0
    rw [h0]
    simp only [Option.map_eq_none']
    exact ih (fun p => h (p + 1))

theorem findMatch_some (s pre group1 post : Str) (h : findMatch s = some (pre, group1, post)) :
    s = pre ++ (sectionStart ++ (group1 ++ sectionEnd ++ post))
      ∧ matchHere (sectionStart ++ (group1 ++ sectionEnd ++ post)) = some (group1, post)
      ∧ ∀ p, p < pre.length → matchHere (s.drop p) = none := by
  induction s generalizing pre with
  | nil => simp [findMatch] at h
  | cons c s ih =>
    unfold findMatch at h
    cases hm : matchHere (c :: s) with
    | some m =>
      obtain ⟨g, po⟩ := m
      rw [hm] at h
      simp only [Option.some.injEq, Prod.mk.injEq] at h
      obtain ⟨rfl, rfl, rfl⟩ := h
      obtain ⟨hs, _⟩ := matchHere_some _ _ _ hm
      refine ⟨by simpa using hs, by rw [← hs]; exact hm, ?_⟩
      intro p hp
      simp at hp
    | none =>
      rw [hm] at h
      simp only [Option.map_eq_some'] at h
      obtain ⟨⟨pre', g, po⟩, hf, heq⟩ := h
      simp only [Prod.mk.injEq] at heq
      obtain ⟨rfl, rfl, rfl⟩ := heq
      obtain ⟨h1, h2, h3⟩ := ih pre' hf
      refine ⟨by rw [h1]; simp, h2, ?_⟩
      intro p hp
      cases p with
      | zero => exact hm
      | succ p => exact h3 p (by simpa using hp)

theorem findMatch_eq_some (pre m group1 post : Str)
    (hm : matchHere m = some (group1, post))
    (hpre : ∀ p, p < pre.length → matchHere ((pre ++ m).drop p) = none) :
    findMatch (pre ++ m) = some (pre, group1, post) := by
  induction pre with
  | nil =>
    cases m with
    | nil => rw [matchHere_nil] at hm; simp at hm
    | cons c m =>
      simp only [List.nil_append]
      unfold findMatch
      rw [hm]
  | cons c pre ih =>
    have h0 : matchHere (c :: (pre ++ m)) = none := hpre 0 (by simp)
    have hrest := ih (fun p hp => hpre (p + 1) (by simpa using hp))
    simp only [List.cons_append]
    unfold findMatch
    rw [h0, hrest]
    rfl

theorem expand_of_no_dollar (isWord : Char → Bool) (whole group1 : Str) :
    ∀ (fuel : Nat) (template : Str), '$' ∉ template →
      expand isWord whole group1 fuel template = template := by
  intro fuel
  induction fuel with
  | zero => intro template _; rfl
  | succ fuel ih =>
    intro template h
    cases template with
    | nil => rfl
    | cons c t =>
      have hc : c ≠ '$' := fun hc => h (by rw [hc]; exact List.mem_cons_self _ _)
      have ht : '$' ∉ t := fun ht => h (List.mem_cons_of_mem _ ht)
      unfold expand
      rw [if_neg hc, ih t ht]

theorem no_sectionEnd_behind (pre group1 post : Str) (s : Str)
    (h : findMatch s = some (pre, group1, post)) : ∀ k, ¬ occursAt sectionEnd post k := by
  obtain ⟨_, hm, _⟩ := findMatch_some s pre group1 post h
  obtain ⟨_, hlast⟩ := matchHere_some _ _ _ hm
  intro k hk
  apply hlast (group1.length + sectionEnd.length + k) (by have := sectionEnd_length_pos; omega)
  unfold occursAt at hk ⊢
  rw [show group1 ++ sectionEnd ++ post = (group1 ++ sectionEnd) ++ post from rfl,
    show group1.length + sectionEnd.length + k = (group1 ++ sectionEnd).length + k by simp,
    List.drop_append]
  exact hk

theorem findMatch_of_no_sectionEnd (s : Str) (h : ∀ k, ¬ occursAt sectionEnd s k) :
    findMatch s = none := by
  apply findMatch_eq_none
  intro p
  apply matchHere_eq_none
  rintro ⟨_, k, hk⟩
  apply h (p + sectionStart.length + k)
  unfold occursAt at hk ⊢
  rw [List.drop_drop, List.drop_drop, ← Nat.add_assoc] at hk
  exact hk

theorem replaceAll_of_no_match (isWord : Char → Bool) (repl : Str) (fuel : Nat) (s : Str)
    (h : findMatch s = none) : replaceAll isWord repl fuel s = s := by
  cases fuel with
  | zero => rfl
  | succ fuel => unfold replaceAll; rw [h]

theorem ReplaceAll_of_no_dollar (isWord : Char → Bool) (repl s pre group1 post : Str)
    (hrepl : '$' ∉ repl) (h : findMatch s = some (pre, group1, post)) :
    ReplaceAll isWord s repl = pre ++ repl ++ post := by
  unfold ReplaceAll replaceAll
  rw [h]
  simp only
  rw [expand_of_no_dollar isWord _ _ _ _ hrepl,
    replaceAll_of_no_match isWord repl _ post
      (findMatch_of_no_sectionEnd post (no_sectionEnd_behind pre group1 post s h))]

theorem not_dollar_mem_block (hostEntries : Str) (h : '$' ∉ hostEntries) :
    '$' ∉ block hostEntries := by
  unfold block
  simp only [List.mem_append, not_or]
  refine ⟨⟨⟨⟨by decide, by decide⟩, h⟩, by decide⟩, by decide⟩

theorem tryWriteToHostFile_of_match (isWord : Char → Bool) (fileContent hostEntries : Str)
    (pre group1 post : Str) (hb : '$' ∉ hostEntries)
    (h : findMatch fileContent = some (pre, group1, post)) :
    tryWriteToHostFile isWord fileContent hostEntries = pre ++ block hostEntries ++ post := by
  unfold tryWriteToHostFile
  rw [if_pos (by rw [h]; rfl),
    ReplaceAll_of_no_dollar isWord _ _ pre group1 post (not_dollar_mem_block _ hb) h]

theorem tryWriteToHostFile_of_no_match (isWord : Char → Bool) (fileContent hostEntries : Str)
    (h : findMatch fileContent = none) :
    tryWriteToHostFile isWord fileContent hostEntries = fileContent ++ block hostEntries := by
  unfold tryWriteToHostFile
  rw [if_neg (by rw [h]; simp)]


theorem sectionEnd_no_border :
    ∀ k, k < sectionEnd.length → 0 < k → ¬ (sectionEnd.drop k <+: sectionEnd) := by
  decide

theorem no_sectionEnd_behind_block (group1 post : Str) (h : ∀ k, ¬ occursAt sectionEnd post k) :
    ∀ k, group1.length < k → ¬ occursAt sectionEnd (group1 ++ sectionEnd ++ post) k := by
  intro k hk hocc
  obtain ⟨k', rfl, hk'⟩ : ∃ k', k = group1.length + k' ∧ 0 < k' := ⟨k - group1.length, by omega, by omega⟩
  unfold occursAt at hocc
  rw [List.append_assoc, List.drop_append] at hocc
  by_cases hlt : k' < sectionEnd.length
  · rw [List.drop_append_of_le_length (by omega)] at hocc
    apply sectionEnd_no_border k' hlt hk'
    exact List.prefix_of_prefix_length_le (List.prefix_append _ _) hocc (by simp)
  · obtain ⟨j, rfl⟩ : ∃ j, k' = sectionEnd.length + j := ⟨k' - sectionEnd.length, by omega⟩
    rw [List.drop_append] at hocc
    exact h j hocc

theorem sectionStart_in_front (pre x : Str) (p : Nat) (hp : p ≤ pre.length)
    (h : sectionStart <+: (pre ++ (sectionStart ++ x)).drop p) :
    sectionStart <+: (pre ++ sectionStart).drop p := by
  rw [← List.append_assoc, List.drop_append_of_le_length (by simp; omega)] at h
  refine List.prefix_of_prefix_length_le h (List.prefix_append _ _) ?_
  simp only [List.length_drop, List.length_append]
  omega

theorem findMatch_after_replace (s pre group1 post newGroup : Str)
    (h : findMatch s = some (pre, group1, post)) :
    findMatch (pre ++ (sectionStart ++ (newGroup ++ sectionEnd ++ post)))
      = some (pre, newGroup, post) := by
  obtain ⟨hs, _, hleft⟩ := findMatch_some s pre group1 post h
  apply findMatch_eq_some
  · exact matchHere_eq_some newGroup post
      (no_sectionEnd_behind_block newGroup post (no_sectionEnd_behind pre group1 post s h))
  · intro p hp
    apply matchHere_eq_none
    rintro ⟨hstart, _⟩
    have hfront := sectionStart_in_front pre _ p (by omega) hstart
    apply matchHere_none _ (hleft p hp)
    have hdrop : s.drop p
        = (pre ++ sectionStart).drop p ++ (group1 ++ sectionEnd ++ post) := by
      rw [hs, ← List.append_assoc, List.drop_append_of_le_length (by simp; omega)]
    refine ⟨?_, pre.length - p + group1.length, ?_⟩
    · rw [hdrop]
      exact hfront.trans (List.prefix_append _ _)
    · unfold occursAt
      rw [List.drop_drop, List.drop_drop, hs]
      have hidx : p + (sectionStart.length + (pre.length - p + group1.length))
          = (pre ++ sectionStart ++ group1).length := by
        simp only [List.length_append]; omega
      have hsplit : pre ++ (sectionStart ++ (group1 ++ sectionEnd ++ post))
          = (pre ++ sectionStart ++ group1) ++ (sectionEnd ++ post) := by
        simp only [List.append_assoc]
      rw [hidx, hsplit, List.drop_left]
      exact List.prefix_append _ _

theorem findMatch_after_append (s newGroup : Str)
    (hs : ∀ p, p < s.length → ¬ occursAt sectionStart (s ++ sectionStart) p) :
    findMatch (s ++ (sectionStart ++ (newGroup ++ sectionEnd ++ [])))
      = some (s, newGroup, []) := by
  apply findMatch_eq_some
  · exact matchHere_eq_some newGroup []
      (no_sectionEnd_behind_block newGroup [] (fun k hk => by
        simp only [occursAt, List.drop_nil, List.prefix_nil] at hk
        exact sectionEnd_ne_nil hk))
  · intro p hp
    apply matchHere_eq_none
    rintro ⟨hstart, _⟩
    exact hs p hp (sectionStart_in_front s _ p (by omega) hstart)

theorem block_eq (hostEntries : Str) :
    block hostEntries
      = sectionStart ++ ((['\n'] ++ hostEntries ++ ['\n']) ++ sectionEnd ++ []) := by
  simp [block]

theorem findMatch_of_shape (pre mid post : Str) :
    findMatch (pre ++ sectionStart ++ mid ++ sectionEnd ++ post) ≠ none := by
  intro h
  have hm := findMatch_none _ h pre.length
  apply matchHere_none _ hm
  have hdrop : (pre ++ sectionStart ++ mid ++ sectionEnd ++ post).drop pre.length
      = sectionStart ++ (mid ++ sectionEnd ++ post) := by
    simp only [List.append_assoc, List.drop_left]
  rw [hdrop, List.drop_left]
  exact ⟨List.prefix_append _ _, mid.length, occursAt_middle sectionEnd mid post⟩

theorem tryWriteToHostFile_twice_of_match (isWord : Char → Bool) (fileContent hostEntries : Str)
    (pre group1 post : Str) (hb : '$' ∉ hostEntries)
    (h : findMatch fileContent = some (pre, group1, post)) :
    tryWriteToHostFile isWord (tryWriteToHostFile isWord fileContent hostEntries) hostEntries
      = tryWriteToHostFile isWord fileContent hostEntries := by
  rw [tryWriteToHostFile_of_match isWord _ _ pre group1 post hb h]
  have hshape : pre ++ block hostEntries ++ post
      = pre ++ (sectionStart ++ ((['\n'] ++ hostEntries ++ ['\n']) ++ sectionEnd ++ post)) := by
    simp [block]
  have hfind := findMatch_after_replace fileContent pre group1 post
    (['\n'] ++ hostEntries ++ ['\n']) h
  rw [← hshape] at hfind
  exact tryWriteToHostFile_of_match isWord _ _ pre _ post hb hfind

theorem tryWriteToHostFile_twice_of_fresh (isWord : Char → Bool) (fileContent hostEntries : Str)
    (hb : '$' ∉ hostEntries)
    (hs : ∀ p, p < fileContent.length → ¬ occursAt sectionStart (fileContent ++ sectionStart) p) :
    tryWriteToHostFile isWord (tryWriteToHostFile isWord fileContent hostEntries) hostEntries
      = tryWriteToHostFile isWord fileContent hostEntries := by
  have hnone : findMatch fileContent = none := by
    apply findMatch_eq_none
    intro p
    apply matchHere_eq_none
    rintro ⟨hstart, _⟩
    by_cases hp : p < fileContent.length
    · apply hs p hp
      unfold occursAt
      rw [List.drop_append_of_le_length (by omega)]
      exact hstart.trans (List.prefix_append _ _)
    · rw [List.drop_eq_nil_of_le (by omega)] at hstart
      exact sectionStart_ne_nil (List.prefix_nil.mp hstart)
  rw [tryWriteToHostFile_of_no_match isWord _ _ hnone]
  have hfind := findMatch_after_append fileContent (['\n'] ++ hostEntries ++ ['\n']) hs
  rw [← block_eq] at hfind
  rw [tryWriteToHostFile_of_match isWord _ _ fileContent _ [] hb hfind]
  simp


theorem strLess_total (a b : Str) (hab : strLess a b = false) (hba : strLess b a = false) :
    a = b := by
  induction a generalizing b with
  | nil =>
    cases b with
    | nil => rfl
    | cons y ys => simp [strLess] at hab
  | cons x xs ih =>
    cases b with
    | nil => simp [strLess] at hba
    | cons y ys =>
      simp only [strLess] at hab hba
      split_ifs at hab hba with h1 h2
      have hxy : x = y := by
        apply Char.ext
        apply UInt32.ext
        have : x.toNat = y.toNat := by omega
        simpa [Char.toNat, UInt32.toNat] using this
      rw [hxy, ih ys hab hba]

theorem sortSort_eq_of_perm (lower : Char → Char) (next : Nat → Nat) (l₁ l₂ : HostsList) (h : l₁.Perm l₂)
    (hties : ∀ a ∈ l₁, ∀ b ∈ l₁, ToLower lower a.Domain = ToLower lower b.Domain → a = b) :
    sortSort lower next l₁ = sortSort lower next l₂ := by
  have hp₁ := sortSort_perm lower next l₁
  have hp₂ := sortSort_perm lower next l₂
  refine List.Perm.eq_of_sorted ?_ (sortSort_sorted lower next l₁) (sortSort_sorted lower next l₂)
    (hp₁.trans (h.trans hp₂.symm))
  intro a b ha hb hab hba
  have ha' : a ∈ l₁ := hp₁.mem_iff.mp ha
  have hb' : b ∈ l₁ := h.mem_iff.mpr (hp₂.mem_iff.mp hb)
  exact hties a ha' b hb' (strLess_total _ _ hba hab)

theorem le_maxCellWidth (k8sHostname : Str) (entries : HostsList) (r : Rule) (hr : r ∈ entries) :
    (k8sHostname ++ [' '] ++ r.Domain).length ≤ maxCellWidth k8sHostname entries := by
  unfold maxCellWidth
  induction entries with
  | nil => simp at hr
  | cons e es ih =>
    simp only [List.map_cons, List.foldr_cons]
    rcases List.mem_cons.mp hr with h | h
    · rw [h]; exact Nat.le_max_left _ _
    · exact (ih h).trans (Nat.le_max_right _ _)

theorem tryWriteToHostFile_replace (isWord : Char → Bool) (pre mid post hostEntries : Str)
    (hb : '$' ∉ hostEntries)
    (hstart : ∀ k, occursAt sectionStart
        (pre ++ (sectionStart ++ (mid ++ (endMarker ++ ['\n']) ++ post))) k → k = pre.length)
    (hend : ∀ k, occursAt endMarker
        (pre ++ (sectionStart ++ (mid ++ (endMarker ++ ['\n']) ++ post))) k
          → k = pre.length + sectionStart.length + mid.length) :
    tryWriteToHostFile isWord (pre ++ (sectionStart ++ (mid ++ (endMarker ++ ['\n']) ++ post)))
        hostEntries
      = pre ++ block hostEntries ++ post := by
  have hE : endMarker ++ ['\n'] = sectionEnd := by decide
  rw [hE] at hstart hend ⊢
  apply tryWriteToHostFile_of_match isWord _ _ pre mid post hb
  apply findMatch_eq_some
  · apply matchHere_eq_some
    intro k hk hocc
    have hidx : pre.length + sectionStart.length + k = (pre ++ sectionStart).length + k := by
      simp
    have hmarker : endMarker <+: sectionEnd := ⟨['\n'], hE⟩
    have := hend (pre.length + sectionStart.length + k) (by
      unfold occursAt at hocc ⊢
      rw [← List.append_assoc, hidx, List.drop_append]
      exact hmarker.trans hocc)
    omega
  · intro p hp
    apply matchHere_eq_none
    rintro ⟨hs, _⟩
    have := hstart p hs
    omega


/-! ## The bounds of the recursions are large enough -/

theorem formatSteps_cons (column : Nat) (row : List Cell) (lines : List (List Cell)) :
    formatSteps column (row :: lines) = (row.length - column + 1) + formatSteps column lines := by
  simp [formatSteps]

theorem formatSteps_dropWhile_le (column : Nat) (p : List Cell → Bool) (lines : List (List Cell)) :
    formatSteps column (lines.dropWhile p) ≤ formatSteps column lines := by
  induction lines with
  | nil => simp
  | cons row rest ih =>
    rw [List.dropWhile_cons]
    split
    · rw [formatSteps_cons]; omega
    · exact Nat.le_refl _

theorem formatSteps_block_lt (column : Nat) (lines : List (List Cell)) :
    formatSteps (column + 1)
        (lines.takeWhile (fun row => decide (column + 1 < row.length)))
      + (lines.takeWhile (fun row => decide (column + 1 < row.length))).length
      + formatSteps column (lines.dropWhile (fun row => decide (column + 1 < row.length)))
      ≤ formatSteps column lines := by
  induction lines with
  | nil => simp [formatSteps]
  | cons row rest ih =>
    rw [List.takeWhile_cons, List.dropWhile_cons]
    by_cases h : column + 1 < row.length
    · simp only [h, decide_True, if_true, formatSteps_cons, List.length_cons]
      omega
    · simp only [h, decide_False, Bool.false_eq_true, if_false, List.length_nil]
      simp [formatSteps]

theorem format_fuel (total : Nat) :
    ∀ (fuel₁ fuel₂ : Nat) (widths : List Nat) (line0 : Nat) (lines : List (List Cell)),
      formatSteps widths.length lines < fuel₁ → formatSteps widths.length lines < fuel₂ →
      format total fuel₁ widths line0 lines = format total fuel₂ widths line0 lines := by
  intro fuel₁
  induction fuel₁ with
  | zero => intro fuel₂ widths line0 lines h; omega
  | succ fuel₁ ih =>
    intro fuel₂ widths line0 lines h₁ h₂
    cases fuel₂ with
    | zero => omega
    | succ fuel₂ =>
      unfold format
      simp only []
      have hdrop := formatSteps_dropWhile_le widths.length
        (fun row => decide (row.length ≤ widths.length + 1)) lines
      cases hrest : lines.dropWhile (fun row => decide (row.length ≤ widths.length + 1)) with
      | nil => rfl
      | cons row rest =>
        rw [hrest] at hdrop
        have hblock := formatSteps_block_lt widths.length (row :: rest)
        have hfirst : ¬ (row.length ≤ widths.length + 1) := by
          have := List.head_dropWhile_not (fun row : List Cell =>
            decide (row.length ≤ widths.length + 1)) lines (by rw [hrest]; simp)
          simpa [hrest] using this
        have hne : 0 < ((row :: rest).takeWhile
            (fun row => decide (widths.length + 1 < row.length))).length := by
          rw [List.takeWhile_cons]
          simp [Nat.lt_of_not_le hfirst]
        have hw : ∀ w : Nat, (widths ++ [w]).length = widths.length + 1 := by simp
        simp only []
        rw [ih fuel₂ (widths ++ [_]) _ _ (by rw [hw]; omega) (by rw [hw]; omega),
          ih fuel₂ widths _ _ (by omega) (by omega)]

theorem flush_fuel_enough (all : List (List Cell)) :
    formatSteps 0 all < all.length + (all.map List.length).sum + 1 := by
  induction all with
  | nil => simp [formatSteps]
  | cons row rest ih =>
    simp only [formatSteps_cons, List.length_cons, List.map_cons, List.sum_cons] at ih ⊢
    omega

theorem extract_rest_length (isWord : Char → Bool) (str name rest : Str) (num : Option Nat)
    (h : extract isWord str = some (name, num, rest)) : rest.length ≤ str.length := by
  unfold extract at h
  simp only at h
  have hdw : ∀ s : Str, (s.dropWhile isWord).length ≤ s.length := fun s =>
    (List.dropWhile_sublist isWord).length_le
  by_cases hb : str.head? = some '\x7b'
  · simp only [hb, decide_True, if_true] at h
    split_ifs at h with hn
    split at h
    · rename_i rest' hrest
      simp only [Option.some.injEq, Prod.mk.injEq] at h
      obtain ⟨_, _, rfl⟩ := h
      have h3 := hdw (str.drop 1)
      rw [hrest] at h3
      simp only [List.length_cons, List.length_drop] at h3
      omega
    · simp at h
  · simp only [hb, decide_False, Bool.false_eq_true, if_false] at h
    split_ifs at h with hn
    simp only [Option.some.injEq, Prod.mk.injEq] at h
    obtain ⟨_, _, rfl⟩ := h
    exact hdw str

theorem expand_fuel (isWord : Char → Bool) (whole group1 : Str) :
    ∀ (fuel₁ fuel₂ : Nat) (template : Str), template.length < fuel₁ → template.length < fuel₂ →
      expand isWord whole group1 fuel₁ template = expand isWord whole group1 fuel₂ template := by
  intro fuel₁
  induction fuel₁ with
  | zero => intro fuel₂ template h; omega
  | succ fuel₁ ih =>
    intro fuel₂ template h₁ h₂
    cases fuel₂ with
    | zero => omega
    | succ fuel₂ =>
      cases template with
      | nil => rfl
      | cons c t =>
        simp only [List.length_cons] at h₁ h₂
        unfold expand
        by_cases hc : c = '$'
        · simp only [hc, if_true]
          split
          · rename_i t' 
            simp only [List.length_cons] at h₁ h₂
            rw [ih fuel₂ t' (by omega) (by omega)]
          · cases hx : extract isWord t with
            | none => simp only []; rw [ih fuel₂ t (by omega) (by omega)]
            | some m =>
              obtain ⟨name, num, rest⟩ := m
              have := extract_rest_length isWord t name rest num hx
              simp only []
              rw [ih fuel₂ rest (by omega) (by omega)]
        · simp only [hc, if_false]
          rw [ih fuel₂ t (by omega) (by omega)]

theorem replaceAll_succ (isWord : Char → Bool) (repl : Str) (fuel : Nat) (src : Str) :
    replaceAll isWord repl (fuel + 1) src
      = match findMatch src with
        | none => src
        | some (pre, group1, post) =>
          pre ++ expand isWord (sectionStart ++ group1 ++ sectionEnd) group1 (repl.length + 1) repl
            ++ post := by
  unfold replaceAll
  cases hm : findMatch src with
  | none => rfl
  | some m =>
    obtain ⟨pre, group1, post⟩ := m
    simp only []
    rw [replaceAll_of_no_match isWord repl fuel post
      (findMatch_of_no_sectionEnd post (no_sectionEnd_behind pre group1 post src hm))]

/-! ## The claims -/

set_option maxRecDepth 1000000

/-- C1 (defect of the code): in the replace case the new block is handed to `ReplaceAll` as
a template, so a `$` in the body is expanded instead of written.  For the file
`pre ++ START ++ "\nold\n" ++ END ++ "\n" ++ post` with `pre = "127.0.0.1 localhost\n"`,
`post = "::1 ip6\n"` and the body `"10.0.0.5 a.local  # $1\n"`, the text written back has
the old block content in place of `$1`, and differs from `pre ++ block body ++ post`. -/
theorem tryWriteToHostFile_dollar_body :
    tryWriteToHostFile asciiWord
        ("127.0.0.1 localhost\n".toList ++ sectionStart ++ "\nold\n".toList ++ sectionEnd
          ++ "::1 ip6\n".toList)
        "10.0.0.5 a.local  # $1\n".toList
      = "127.0.0.1 localhost\n".toList ++ sectionStart
          ++ "\n10.0.0.5 a.local  # \nold\n\n\n".toList ++ sectionEnd ++ "::1 ip6\n".toList
    ∧ tryWriteToHostFile asciiWord
        ("127.0.0.1 localhost\n".toList ++ sectionStart ++ "\nold\n".toList ++ sectionEnd
          ++ "::1 ip6\n".toList)
        "10.0.0.5 a.local  # $1\n".toList
      ≠ "127.0.0.1 localhost\n".toList ++ block "10.0.0.5 a.local  # $1\n".toList
          ++ "::1 ip6\n".toList := by
  decide

/-- C2 (as stated, refuted): for the empty file, which contains no managed block, and the
body `"10.0.0.5 foo.local\t# foo-svc\n"`, which ends in a newline, the content written back
is not `original ++ START ++ "\n" ++ body ++ END ++ "\n"`. -/
theorem append_block_not_as_claimed :
    (¬ ∃ pre mid post : Str, ([] : Str) = pre ++ sectionStart ++ mid ++ sectionEnd ++ post)
    ∧ "10.0.0.5 foo.local\t# foo-svc\n".toList.getLast? = some '\n'
    ∧ tryWriteToHostFile asciiWord [] "10.0.0.5 foo.local\t# foo-svc\n".toList
      ≠ [] ++ sectionStart ++ ['\n'] ++ "10.0.0.5 foo.local\t# foo-svc\n".toList
          ++ endMarker ++ ['\n'] := by
  refine ⟨?_, by decide, by decide⟩
  rintro ⟨pre, mid, post, h⟩
  have := congrArg List.length h
  simp only [List.length_nil, List.length_append] at this
  have := sectionEnd_length_pos
  omega

/-- C2 (amended): for every file content that contains no managed block (no start marker
followed somewhere by the end marker line) and every body, the content written back is the
original content followed by the start marker line, the body, one more newline and the end
marker line: `original ++ START ++ "\n" ++ body ++ "\n" ++ END ++ "\n"`.  After a body that
is empty or ends in a newline there is thus an empty line before the end marker line. -/
theorem tryWriteToHostFile_append (isWord : Char → Bool) (fileContent hostEntries : Str)
    (hnone : ¬ ∃ pre mid post : Str,
      fileContent = pre ++ sectionStart ++ mid ++ sectionEnd ++ post) :
    tryWriteToHostFile isWord fileContent hostEntries
      = fileContent ++ sectionStart ++ ['\n'] ++ hostEntries ++ ['\n'] ++ endMarker ++ ['\n'] := by
  have hfind : findMatch fileContent = none := by
    cases hm : findMatch fileContent with
    | none => rfl
    | some m =>
      obtain ⟨pre, group1, post⟩ := m
      exfalso
      apply hnone
      refine ⟨pre, group1, post, ?_⟩
      rw [(findMatch_some _ _ _ _ hm).1]
      simp only [List.append_assoc]
  rw [tryWriteToHostFile_of_no_match isWord _ _ hfind]
  have hE : sectionEnd = endMarker ++ ['\n'] := by decide
  simp only [block, hE, List.append_assoc]

/-- C2 (amended), at the file `"127.0.0.1 localhost\n"` and the body of the scenario. -/
theorem tryWriteToHostFile_append_witness :
    tryWriteToHostFile asciiWord "127.0.0.1 localhost\n".toList
        "10.0.0.5 foo.local\t# foo-svc\n".toList
      = "127.0.0.1 localhost\n".toList ++ sectionStart ++ ['\n']
          ++ "10.0.0.5 foo.local\t# foo-svc\n".toList ++ ['\n'] ++ endMarker ++ ['\n'] :=
  tryWriteToHostFile_append asciiWord "127.0.0.1 localhost\n".toList
    "10.0.0.5 foo.local\t# foo-svc\n".toList
    (fun ⟨pre, mid, post, h⟩ => findMatch_of_shape pre mid post (h ▸ (by decide)))

/-- C3 (as stated, refuted): for the file that consists of a start marker line without an
end marker line and the empty body, a second run changes the file again. -/
theorem tryWriteToHostFile_not_idempotent :
    tryWriteToHostFile asciiWord
        (tryWriteToHostFile asciiWord (sectionStart ++ ['\n']) []) []
      ≠ tryWriteToHostFile asciiWord (sectionStart ++ ['\n']) [] := by
  decide

/-- C3 (amended): for every body without the character `$` and every file content that
either contains a managed block (a start marker followed somewhere by the end marker line)
or in which no start marker begins (none is completed by the first bytes of the appended
block either), running File Sync twice with the same body gives the same content as
running it once. -/
theorem tryWriteToHostFile_idempotent (isWord : Char → Bool) (fileContent hostEntries : Str)
    (hbody : '$' ∉ hostEntries)
    (hfile : (∃ pre mid post : Str,
        fileContent = pre ++ sectionStart ++ mid ++ sectionEnd ++ post)
      ∨ ∀ p, p < fileContent.length → ¬ occursAt sectionStart (fileContent ++ sectionStart) p) :
    tryWriteToHostFile isWord (tryWriteToHostFile isWord fileContent hostEntries) hostEntries
      = tryWriteToHostFile isWord fileContent hostEntries := by
  rcases hfile with ⟨pre, mid, post, rfl⟩ | hfresh
  · cases hm : findMatch (pre ++ sectionStart ++ mid ++ sectionEnd ++ post) with
    | none => exact absurd hm (findMatch_of_shape pre mid post)
    | some m =>
      obtain ⟨pre', group1, post'⟩ := m
      exact tryWriteToHostFile_twice_of_match isWord _ _ pre' group1 post' hbody hm
  · exact tryWriteToHostFile_twice_of_fresh isWord _ _ hbody hfresh

/-- C3 (amended), at a file with a managed block between two unmanaged lines. -/
theorem tryWriteToHostFile_idempotent_witness :
    '$' ∉ "10.0.0.5 foo.local  # foo-svc\n".toList
    ∧ tryWriteToHostFile asciiWord
        (tryWriteToHostFile asciiWord
          ("127.0.0.1 localhost\n".toList ++ sectionStart ++ "\nold\n".toList ++ sectionEnd
            ++ "::1 ip6\n".toList)
          "10.0.0.5 foo.local  # foo-svc\n".toList)
        "10.0.0.5 foo.local  # foo-svc\n".toList
      = tryWriteToHostFile asciiWord
          ("127.0.0.1 localhost\n".toList ++ sectionStart ++ "\nold\n".toList ++ sectionEnd
            ++ "::1 ip6\n".toList)
          "10.0.0.5 foo.local  # foo-svc\n".toList :=
  ⟨by decide,
    tryWriteToHostFile_idempotent asciiWord _ _ (by decide)
      (Or.inl ⟨"127.0.0.1 localhost\n".toList, "\nold\n".toList, "::1 ip6\n".toList, rfl⟩)⟩

/-- On thirteen rules `sort.Sort` runs one round of the quicksort (choice of the pivot,
partition, then insertion sort on both sides): rules with the same domain do not keep their
order. -/
theorem sortSort_thirteen_rules :
    (sortSort Char.toLower xorshiftNext
      [⟨"a.local".toList, "s00".toList⟩, ⟨"b.local".toList, "s01".toList⟩,
       ⟨"a.local".toList, "s02".toList⟩, ⟨"b.local".toList, "s03".toList⟩,
       ⟨"a.local".toList, "s04".toList⟩, ⟨"b.local".toList, "s05".toList⟩,
       ⟨"a.local".toList, "s06".toList⟩, ⟨"b.local".toList, "s07".toList⟩,
       ⟨"a.local".toList, "s08".toList⟩, ⟨"b.local".toList, "s09".toList⟩,
       ⟨"a.local".toList, "s10".toList⟩, ⟨"b.local".toList, "s11".toList⟩,
       ⟨"a.local".toList, "s12".toList⟩]).map (fun r => r.Service)
      = ["s08".toList, "s12".toList, "s02".toList, "s00".toList, "s04".toList, "s10".toList,
         "s06".toList, "s03".toList, "s07".toList, "s09".toList, "s05".toList, "s11".toList,
         "s01".toList] := by
  decide

/-- C4: for every list of rules, of any length, the list that `sort.Sort` (the
pattern-defeating quicksort of the library, with any generator step) leaves at the start of
`sortAndWrite` is a permutation of the input and is non-decreasing by lower-cased domain:
of any two entries the later one does not have the smaller lower-cased domain (in
particular for every adjacent pair `toLower(domain_i) <= toLower(domain_{i+1})`). -/
theorem sortSort_sorted_perm (lower : Char → Char) (next : Nat → Nat) (entries : HostsList) :
    (sortSort lower next entries).Perm entries
    ∧ (sortSort lower next entries).Pairwise
        (fun a b => strLess (ToLower lower b.Domain) (ToLower lower a.Domain) = false) :=
  ⟨sortSort_perm lower next entries, sortSort_sorted lower next entries⟩

/-- C5 (as stated, refuted): with the store `[(a.local, svc-a), (b.local, svc-a)]` a
Modified event for `svc-a` with first rule `a2.local` overwrites the domain of both
entries, not only of the first one. -/
theorem modified_overwrites_later_entry :
    modified
        [⟨"a.local".toList, "svc-a".toList⟩, ⟨"b.local".toList, "svc-a".toList⟩]
        ⟨"svc-a".toList, ⟨[⟨"a2.local".toList⟩]⟩⟩
      = some [⟨"a2.local".toList, "svc-a".toList⟩, ⟨"a2.local".toList, "svc-a".toList⟩]
    ∧ modified
        [⟨"a.local".toList, "svc-a".toList⟩, ⟨"b.local".toList, "svc-a".toList⟩]
        ⟨"svc-a".toList, ⟨[⟨"a2.local".toList⟩]⟩⟩
      ≠ some (specUpdateOwnerDomain "svc-a".toList "a2.local".toList
          [⟨"a.local".toList, "svc-a".toList⟩, ⟨"b.local".toList, "svc-a".toList⟩]) := by
  decide

/-- C5 (amended): for every rule store and every Modified event for an object with name
`n` and at least one rule, every store entry whose owner equals `n` has its domain
overwritten with the host of the object's first rule, every entry with another owner is
left unchanged, and the number of entries is unchanged. -/
theorem modified_overwrites_every_owner_entry (entries : HostsList) (name : Str)
    (rule0 : IngressRule) (rules : List IngressRule) :
    modified entries ⟨name, ⟨rule0 :: rules⟩⟩
      = some (entries.map (fun entry =>
          if entry.Service = name then { entry with Domain := rule0.Host } else entry))
    ∧ (entries.map (fun entry =>
          if entry.Service = name then { entry with Domain := rule0.Host } else entry)).length
      = entries.length :=
  ⟨modified_cons_rules entries name rule0 rules, List.length_map _ _⟩


/-- C6: for every rule store and every Deleted event for an object with name `n` and rules
`r_1..r_k`, the store after the event is obtained by removing, for each `r_i` in order, the
first remaining entry with owner `n` and domain `r_i.host` (nothing when none matches).
Hence the result is a sublist of the store (relative order kept), it keeps exactly the
entries whose owner differs from `n` or whose domain is the host of no `r_i`, and the store
is unchanged when no entry matches any rule. -/
theorem deleted_removes_first_match_per_rule (entries : HostsList) (name : Str)
    (rules : List IngressRule) :
    deleted entries ⟨name, ⟨rules⟩⟩
      = rules.foldl (fun entries rule =>
          entries.eraseP (fun entry => entry.Service = name ∧ entry.Domain = rule.Host))
          entries
    ∧ (deleted entries ⟨name, ⟨rules⟩⟩).Sublist entries
    ∧ (deleted entries ⟨name, ⟨rules⟩⟩).filter
          (fun entry => entry.Service ≠ name ∨ entry.Domain ∉ rules.map (fun r => r.Host))
        = entries.filter
          (fun entry => entry.Service ≠ name ∨ entry.Domain ∉ rules.map (fun r => r.Host))
    ∧ ((∀ entry ∈ entries, ∀ rule ∈ rules,
          ¬ (entry.Service = name ∧ entry.Domain = rule.Host))
        → deleted entries ⟨name, ⟨rules⟩⟩ = entries) := by
  rw [deleted_eq_foldl_eraseP]
  refine ⟨rfl, foldl_eraseP_sublist name rules entries, ?_, foldl_eraseP_of_no_match name rules entries⟩
  apply foldl_eraseP_filter
  intro e r hr hs hd
  simp only [decide_eq_false_iff_not, not_or, not_not, List.mem_map, ne_eq]
  exact ⟨hs, r, hr, hd.symm⟩

/-- C6, at the store `[(a.local, svc-a), (b.local, svc-b)]` and a Deleted event for `svc-c`
with the rule `a.local`: no entry matches and the store is unchanged. -/
theorem deleted_removes_first_match_per_rule_witness :
    deleted [⟨"a.local".toList, "svc-a".toList⟩, ⟨"b.local".toList, "svc-b".toList⟩]
        ⟨"svc-c".toList, ⟨[⟨"a.local".toList⟩]⟩⟩
      = [⟨"a.local".toList, "svc-a".toList⟩, ⟨"b.local".toList, "svc-b".toList⟩] :=
  (deleted_removes_first_match_per_rule
    [⟨"a.local".toList, "svc-a".toList⟩, ⟨"b.local".toList, "svc-b".toList⟩]
    "svc-c".toList [⟨"a.local".toList⟩]).2.2.2 (by decide)

/-- C7: for every rule store `s` and every Added event for an object with name `n` and
rules `r_1..r_k`, the store after the mutation is `s` followed by the entries
`(r_i.host, n)` in order: exactly `k` entries are gained and `s` is kept as a prefix.  The
initial listing builds the store the same way, object after object, from the empty
store. -/
theorem added_appends_one_entry_per_rule (entries : HostsList) (newIngress : Ingress)
    (items : List Ingress) :
    added entries newIngress
      = entries ++ newIngress.Spec.Rules.map
          (fun rule => ({ Domain := rule.Host, Service := newIngress.Name } : Rule))
    ∧ (added entries newIngress).length = entries.length + newIngress.Spec.Rules.length
    ∧ entries <+: added entries newIngress
    ∧ initialListing items = items.foldl added []
    ∧ initialListing items
      = (items.map (fun elem => elem.Spec.Rules.map
          (fun rule => ({ Domain := rule.Host, Service := elem.Name } : Rule)))).flatten := by
  have h : added entries newIngress
      = entries ++ newIngress.Spec.Rules.map
          (fun rule => ({ Domain := rule.Host, Service := newIngress.Name } : Rule)) :=
    appendRules_eq entries newIngress.Name newIngress.Spec.Rules
  refine ⟨h, by rw [h]; simp, by rw [h]; exact List.prefix_append _ _, rfl, ?_⟩
  unfold initialListing
  rw [initialListing_foldl_eq]
  simp

/-- C8: for every address without tab, vertical tab, newline and form feed (every resolved
address, which is an IP literal) and every list of rules, of any length, whose domains and
owners are printable ASCII, the rendered body is the concatenation, in the order left by
`sort.Sort` (`sortSort`, with any generator step), of one line per rule; the line is
`address ++ " " ++ domain` padded with spaces to the width `W + 2`, then `"# " ++ owner`,
then the newline, where `W` is the greatest length of `address ++ " " ++ domain` over all
rules.  The padded text has the length `W + 2` for every rule, so every `#` is at the same
column, and no line has a newline before its end. -/
theorem sortAndWrite_renders_aligned_lines (lower : Char → Char) (next : Nat → Nat)
    (k8sHostname : Str)
    (entries : HostsList) (hk : plain k8sHostname)
    (he : ∀ r ∈ entries, printable r.Domain ∧ printable r.Service) :
    sortAndWrite lower next k8sHostname entries
      = ((sortSort lower next entries).map (fun r =>
          padTo (maxCellWidth k8sHostname entries + 2) (k8sHostname ++ [' '] ++ r.Domain)
            ++ ['#', ' '] ++ r.Service ++ ['\n'])).flatten
    ∧ (∀ r ∈ entries,
        (padTo (maxCellWidth k8sHostname entries + 2) (k8sHostname ++ [' '] ++ r.Domain)).length
          = maxCellWidth k8sHostname entries + 2)
    ∧ (∀ r ∈ entries,
        '\n' ∉ padTo (maxCellWidth k8sHostname entries + 2) (k8sHostname ++ [' '] ++ r.Domain)
          ++ ['#', ' '] ++ r.Service) := by
  have he' : ∀ r ∈ entries, plain r.Domain ∧ plain r.Service := fun r hr =>
    ⟨plain_of_printable _ (he r hr).1, plain_of_printable _ (he r hr).2⟩
  refine ⟨sortAndWrite_eq lower next k8sHostname entries hk he', ?_, ?_⟩
  · intro r hr
    have := le_maxCellWidth k8sHostname entries r hr
    simp only [padTo, List.length_append, List.length_replicate] at this ⊢
    omega
  · intro r hr hmem
    have hnl : ∀ s : Str, plain s → '\n' ∉ s := fun s hs hc =>
      hs _ hc (Or.inr (Or.inr (Or.inl rfl)))
    simp only [padTo, List.mem_append, List.mem_replicate, List.mem_cons, List.mem_singleton,
      List.not_mem_nil, or_false] at hmem
    rcases hmem with ((((h | h) | h) | h) | h) | h
    · exact hnl _ hk h
    · exact absurd h (by decide)
    · exact hnl _ (he' r hr).1 h
    · exact absurd h.2 (by decide)
    · rcases h with h | h <;> exact absurd h (by decide)
    · exact hnl _ (he' r hr).2 h

/-- C8, at the address `10.0.0.5` and the rules `(foo.local, foo-svc)`, `(B.io, b)`. -/
theorem sortAndWrite_renders_aligned_lines_witness :
    sortAndWrite Char.toLower xorshiftNext "10.0.0.5".toList
        [⟨"foo.local".toList, "foo-svc".toList⟩, ⟨"B.io".toList, "b".toList⟩]
      = "10.0.0.5 B.io       # b\n10.0.0.5 foo.local  # foo-svc\n".toList := by
  have h := (sortAndWrite_renders_aligned_lines Char.toLower xorshiftNext "10.0.0.5".toList
    [⟨"foo.local".toList, "foo-svc".toList⟩, ⟨"B.io".toList, "b".toList⟩]
    (by unfold plain; decide) (by unfold printable; decide)).1
  rw [h]
  decide

/-- C9 (as stated, refuted): the two orders of the rules `(a.local, svc-a)` and
`(a.local, svc-b)`, which have the same domain and different owners, are permutations of
each other and are rendered differently. -/
theorem sortAndWrite_depends_on_order :
    List.Perm
      [(⟨"a.local".toList, "svc-a".toList⟩ : Rule), ⟨"a.local".toList, "svc-b".toList⟩]
      [(⟨"a.local".toList, "svc-b".toList⟩ : Rule), ⟨"a.local".toList, "svc-a".toList⟩]
    ∧ sortAndWrite Char.toLower xorshiftNext "10.0.0.5".toList
        [⟨"a.local".toList, "svc-a".toList⟩, ⟨"a.local".toList, "svc-b".toList⟩]
      ≠ sortAndWrite Char.toLower xorshiftNext "10.0.0.5".toList
        [⟨"a.local".toList, "svc-b".toList⟩, ⟨"a.local".toList, "svc-a".toList⟩] := by
  decide

/-- C9 (amended): for every address and every two rule lists, of any length, that are
permutations of each other and in which any two rules whose domains are equal up to
letter case are the same rule (same domain and same owner), sorting and rendering them in
`sortAndWrite` (with any generator step of the sort) produces the same output. -/
theorem sortAndWrite_order_irrelevant (lower : Char → Char) (next : Nat → Nat)
    (k8sHostname : Str)
    (l₁ l₂ : HostsList) (hperm : l₁.Perm l₂)
    (hties : ∀ a ∈ l₁, ∀ b ∈ l₁, ToLower lower a.Domain = ToLower lower b.Domain → a = b) :
    sortAndWrite lower next k8sHostname l₁ = sortAndWrite lower next k8sHostname l₂ := by
  unfold sortAndWrite
  rw [sortSort_eq_of_perm lower next l₁ l₂ hperm hties]

/-- C9 (amended), at the two orders of `(b.local, svc-b)` and `(A.local, svc-a)`. -/
theorem sortAndWrite_order_irrelevant_witness :
    sortAndWrite Char.toLower xorshiftNext "10.0.0.5".toList
        [⟨"b.local".toList, "svc-b".toList⟩, ⟨"A.local".toList, "svc-a".toList⟩]
      = sortAndWrite Char.toLower xorshiftNext "10.0.0.5".toList
        [⟨"A.local".toList, "svc-a".toList⟩, ⟨"b.local".toList, "svc-b".toList⟩] :=
  sortAndWrite_order_irrelevant Char.toLower xorshiftNext "10.0.0.5".toList
    [⟨"b.local".toList, "svc-b".toList⟩, ⟨"A.local".toList, "svc-a".toList⟩]
    [⟨"A.local".toList, "svc-a".toList⟩, ⟨"b.local".toList, "svc-b".toList⟩]
    (by decide) (by decide)

/-- C10: for every rule store and every Modified event for an object with name `n` and no
rules, the handling fails (index out of range on `Spec.Rules[0]`) if and only if the store
has an entry whose owner is `n`; when no entry has owner `n` it succeeds and leaves the
store unchanged. -/
theorem modified_without_rules (entries : HostsList) (name : Str) :
    (modified entries ⟨name, ⟨[]⟩⟩ = none ↔ ∃ entry ∈ entries, entry.Service = name)
    ∧ ((¬ ∃ entry ∈ entries, entry.Service = name)
        → modified entries ⟨name, ⟨[]⟩⟩ = some entries) := by
  rw [modified_nil_rules]
  by_cases h : entries.any (fun entry => entry.Service = name) = true
  · have hex : ∃ entry ∈ entries, entry.Service = name := by simpa using h
    simp [h, hex]
  · have hex : ¬ ∃ entry ∈ entries, entry.Service = name := by simpa using h
    simp [h, hex]

/-- C10, at the store `[(a.local, svc-a)]` and a Modified event for `svc-b` without rules:
the store is unchanged. -/
theorem modified_without_rules_witness :
    modified [⟨"a.local".toList, "svc-a".toList⟩] ⟨"svc-b".toList, ⟨[]⟩⟩
      = some [⟨"a.local".toList, "svc-a".toList⟩] :=
  (modified_without_rules [⟨"a.local".toList, "svc-a".toList⟩] "svc-b".toList).2 (by decide)

end K8sIngressHosts
